import Mathlib

/-!
# Shallow embedding of the virtual filesystem (src/main.cpp)

The C++ program keeps a pointer tree of `Item` nodes, a sector allocation
bitmap (`vector<bool> sectorMap`), a disk slot array (`vector<string> disk`)
and a fixed capacity `totalSectors`.  We embed pointers as indices into an
arena `items : List (Option Item)`; `new Item()` appends a slot, `delete`
sets the slot to `none`, and pointer equality becomes index equality.

C++ exceptions are embedded as `Except Err`.  Because a thrown exception
does *not* roll back mutations already performed, every state-mutating
helper returns `Except Err α × FS`: the state component is meaningful in
the error case as well.  Public operations wrap their body in try/catch in
the source, so they return `FS × Option Err`.

Recursions over the pointer graph (delete, copy, collect) use explicit
fuel; public operations pass `fs.items.length` as fuel, which bounds the
depth of every acyclic arena tree.  Running out of fuel models the
non-termination / stack overflow the C++ program would exhibit on a
cyclic graph and surfaces as the distinguished error `Err.outOfFuel`.
-/

/-- `const int SECTOR_SIZE = 64;` -/
def SECTOR_SIZE : Nat := 64

/-- Error kinds of the exceptions thrown in src/main.cpp (the source
throws `runtime_error`s with message strings; we keep the kind only). -/
inductive Err where
  | diskFull
  | invalidSector
  | notFound
  | alreadyExists
  | notADirectory
  | notEmpty
  | invalidName
  | invalidOperation
  | nameConflict
  | outOfFuel
  deriving DecidableEq, Repr

deriving instance DecidableEq for Except

/-- The `Item` node class: a file or directory.  `children` and `parent`
hold arena indices instead of pointers; file `content` is the raw byte
sequence, modelled as `List Char`. -/
structure Item where
  isFolder : Bool
  name : String
  content : List Char
  sectors : List Nat
  children : List Nat
  parent : Option Nat
  deriving DecidableEq, Repr

/-- The `FileSystem` state: arena of nodes plus disk and allocator state. -/
structure FS where
  items : List (Option Item)
  root : Nat
  currentDir : Nat
  disk : List (List Char)
  sectorMap : List Bool
  totalSectors : Nat
  deriving DecidableEq, Repr

namespace FS

/-- Dereference an arena index (a `nullptr` or dangling pointer reads as
`none`). -/
def item (fs : FS) (id : Nat) : Option Item :=
  fs.items.getD id none

/-- Overwrite the node at `id` (no-op when the slot is empty). -/
def modifyItem (fs : FS) (id : Nat) (f : Item → Item) : FS :=
  match fs.items.getD id none with
  | some it => { fs with items := fs.items.set id (some (f it)) }
  | none => fs

/-- `new Item()`: append a fresh node, returning its index. -/
def newItem (fs : FS) (it : Item) : Nat × FS :=
  (fs.items.length, { fs with items := fs.items ++ [some it] })

/-- `delete node`: clear the arena slot. -/
def deleteItem (fs : FS) (id : Nat) : FS :=
  { fs with items := fs.items.set id none }

/-- The children list of a node (empty for a dangling index). -/
def childrenOf (fs : FS) (id : Nat) : List Nat :=
  match fs.item id with
  | some it => it.children
  | none => []

/-- The `FileSystem(capacity)` constructor: root directory named `/`,
bitmap and disk of `capacity` slots. -/
def init (capacity : Nat) : FS :=
  { items := [some { isFolder := true, name := "/", content := [],
                     sectors := [], children := [], parent := none }],
    root := 0, currentDir := 0,
    disk := List.replicate capacity [],
    sectorMap := List.replicate capacity false,
    totalSectors := capacity }

end FS

/-! ## Sector allocator (`allocateSector`, `freeSector`) -/

/-- Index of the first `false` entry of the bitmap, scanning upward. -/
def firstFree : List Bool → Option Nat
  | [] => none
  | b :: bs => if b then (firstFree bs).map (· + 1) else some 0

/-- `allocateSector`: return the first free id and mark it allocated;
`throw runtime_error("No free sectors available")` when the scan fails. -/
def allocateSector (fs : FS) : Except Err Nat × FS :=
  match firstFree fs.sectorMap with
  | some i => (.ok i, { fs with sectorMap := fs.sectorMap.set i true })
  | none => (.error .diskFull, fs)

/-- `freeSector(sector)`: bounds check against `sectorMap.size()`, then
mark free.  (The C++ `int` argument is only ever a previously allocated
id, hence a natural number.) -/
def freeSector (s : Nat) (fs : FS) : Except Err Unit × FS :=
  if s ≥ fs.sectorMap.length then (.error .invalidSector, fs)
  else (.ok (), { fs with sectorMap := fs.sectorMap.set s false })

/-- The `for (int sector : file->sectors) freeSector(sector);` loop;
stops at the first failing free, keeping earlier frees. -/
def freeList : List Nat → FS → Except Err Unit × FS
  | [], fs => (.ok (), fs)
  | s :: rest, fs =>
    match freeSector s fs with
    | (.ok _, fs1) => freeList rest fs1
    | (.error e, fs1) => (.error e, fs1)

/-! ## Content chunking and the write loop of `saveToDisk` -/

/-- Split content into chunks of at most `SECTOR_SIZE` bytes, mirroring
the `while (pos < data.length())` / `substr(pos, len)` loop.  The fuel
argument only drives structural recursion; `chunks` hands it the content
length, which always suffices (each round consumes at least one byte),
and the lemma `chunks_eq` below recovers the loop-shaped unfolding. -/
def chunksAux : Nat → List Char → List (List Char)
  | _, [] => []
  | 0, _ :: _ => []
  | fuel + 1, c :: rest =>
    (c :: rest).take SECTOR_SIZE :: chunksAux fuel ((c :: rest).drop SECTOR_SIZE)

def chunks (l : List Char) : List (List Char) := chunksAux l.length l

/-- Number of sectors the content needs. -/
def numChunks (l : List Char) : Nat := (chunks l).length

theorem chunksAux_congr : ∀ f1 f2 (l : List Char), l.length ≤ f1 → l.length ≤ f2 →
    chunksAux f1 l = chunksAux f2 l := by
  intro f1
  induction f1 with
  | zero =>
    intro f2 l h1 _
    have : l = [] := List.length_eq_zero.mp (by omega)
    subst this
    cases f2 <;> rfl
  | succ f1' ih =>
    intro f2 l h1 h2
    match l with
    | [] => cases f2 <;> rfl
    | c :: rest =>
      match f2 with
      | 0 => simp at h2
      | f2' + 1 =>
        rw [chunksAux, chunksAux]
        congr 1
        exact ih f2' _ (by simp [SECTOR_SIZE] at h1 ⊢; omega)
          (by simp [SECTOR_SIZE] at h2 ⊢; omega)

/-- The loop-shaped unfolding of `chunks`, matching the source's
`while (pos < data.length())` round structure. -/
theorem chunks_eq (l : List Char) :
    chunks l = if l = [] then [] else l.take SECTOR_SIZE :: chunks (l.drop SECTOR_SIZE) := by
  match l with
  | [] => rfl
  | c :: rest =>
    rw [chunks]
    simp only [List.length_cons]
    rw [chunksAux]
    simp only [if_neg (by simp : ¬ (c :: rest = []))]
    congr 1
    exact chunksAux_congr _ _ _ (by simp [SECTOR_SIZE]) (le_refl _)

/-- `while (sector >= disk.size()) disk.push_back("");` — the loop runs
at most `sector + 1` times, which `growDisk` passes as fuel. -/
def growDiskAux : Nat → Nat → List (List Char) → List (List Char)
  | 0, _, disk => disk
  | fuel + 1, sector, disk =>
    if sector ≥ disk.length then growDiskAux fuel sector (disk ++ [[]]) else disk

def growDisk (sector : Nat) (disk : List (List Char)) : List (List Char) :=
  growDiskAux (sector + 1) sector disk

/-- The allocation/write loop of `saveToDisk`: for each chunk allocate a
sector, append it to the file's `sectors`, grow the disk, write the slot. -/
def writeChunks (fid : Nat) : List (List Char) → FS → Except Err Unit × FS
  | [], fs => (.ok (), fs)
  | c :: rest, fs =>
    match allocateSector fs with
    | (.error e, fs1) => (.error e, fs1)
    | (.ok sector, fs1) =>
      let fs2 := fs1.modifyItem fid (fun it => { it with sectors := it.sectors ++ [sector] })
      let fs3 := { fs2 with disk := growDisk sector fs2.disk }
      let fs4 := { fs3 with disk := fs3.disk.set sector c }
      writeChunks fid rest fs4

/-- `saveToDisk(file)`: return early on null / folder; free the old
sectors, clear the list, then write the chunks of `content`. -/
def saveToDisk (fid : Nat) (fs : FS) : Except Err Unit × FS :=
  match fs.item fid with
  | none => (.ok (), fs)
  | some it =>
    if it.isFolder then (.ok (), fs)
    else
      match freeList it.sectors fs with
      | (.error e, fs1) => (.error e, fs1)
      | (.ok _, fs1) =>
        let fs2 := fs1.modifyItem fid (fun i => { i with sectors := [] })
        writeChunks fid (chunks it.content) fs2

/-! ## Path splitting and resolution (`splitPath`, `getItem`) -/

/-- The maximal runs of non-`/` characters of a path.  The C++
`getline(stream, part, '/')` loop plus the `!part.empty()` filter yields
exactly these runs.  Fuel (initialized to the character count, each
round consumes at least one character) drives structural recursion. -/
def pathSegsAux : Nat → List Char → List String
  | _, [] => []
  | 0, _ :: _ => []
  | fuel + 1, c :: rest =>
    if c = '/' then pathSegsAux fuel rest
    else String.mk ((c :: rest).takeWhile (· ≠ '/')) ::
         pathSegsAux fuel ((c :: rest).dropWhile (· ≠ '/'))

def pathSegs (l : List Char) : List String := pathSegsAux l.length l

/-- `splitPath`: split on `/` and discard empty parts. -/
def splitPath (path : String) : List String := pathSegs path.toList

/-- `path[0] == '/'` (the source only evaluates this on nonempty paths). -/
def startsWithSlash (p : String) : Bool := p.toList.head? == some '/'

/-- First child of the list whose node carries `name`, with its node
(the source's linear scan over `current->children`). -/
def findChild (fs : FS) : List Nat → String → Option (Nat × Item)
  | [], _ => none
  | c :: rest, name =>
    match fs.item c with
    | some ci => if ci.name = name then some (c, ci) else findChild fs rest name
    | none => findChild fs rest name

/-- The segment walk of `getItem`: `.` is skipped, `..` moves to the
parent when there is one, any other segment selects the named child or
fails. -/
def walkSegs (fs : FS) : Nat → List String → Option Nat
  | cur, [] => some cur
  | cur, seg :: rest =>
    if seg = "." then walkSegs fs cur rest
    else if seg = ".." then
      match (fs.item cur).bind Item.parent with
      | some p => walkSegs fs p rest
      | none => walkSegs fs cur rest
    else
      match findChild fs (fs.childrenOf cur) seg with
      | some (c, _) => walkSegs fs c rest
      | none => none

/-- `getItem(path)`: the special cases for `""`, `"."`, `"/"`, `".."`,
then the split-and-walk starting at the root for absolute paths and at
the current directory otherwise.  Resolution is read-only: the state is
not part of the result. -/
def getItem (fs : FS) (path : String) : Option Nat :=
  if path = "" ∨ path = "." then some fs.currentDir
  else if path = "/" then some fs.root
  else if path = ".." then
    match (fs.item fs.currentDir).bind Item.parent with
    | some p => some p
    | none => some fs.currentDir
  else
    walkSegs fs (if startsWithSlash path then fs.root else fs.currentDir)
      (splitPath path)

/-! ## Recursive tree traversals -/

/-- `collectAllFiles(folder, files)`: depth-first child-order walk pushing
file nodes; folders recurse in place.  The argument is the children list
of the folder being enumerated. -/
def collectFilesAux (fs : FS) : Nat → List Nat → Except Err (List Nat)
  | _, [] => .ok []
  | 0, _ :: _ => .error .outOfFuel
  | fuel + 1, c :: rest =>
    match fs.item c with
    | none => collectFilesAux fs fuel rest
    | some ci =>
      if ci.isFolder then
        match collectFilesAux fs fuel ci.children with
        | .error e => .error e
        | .ok sub =>
          match collectFilesAux fs fuel rest with
          | .error e => .error e
          | .ok restF => .ok (sub ++ restF)
      else
        match collectFilesAux fs fuel rest with
        | .error e => .error e
        | .ok restF => .ok (c :: restF)

/-- `isValidName`: nonempty, not `.`/`..`, characters restricted to
alphanumerics, `_` and `.`. -/
def validChar (c : Char) : Bool := c.isAlphanum || c = '_' || c = '.'

def isValidName (name : String) : Bool :=
  !(name = "" || name = "." || name = "..") && name.toList.all validChar

/-- `freeSectorsRecursive(item)`: free the sectors of a file node, then
recurse into the children in order.  The node-then-children recursion is
linearized into an explicit work-stack (the traversal order and every
intermediate state are identical; spec §9 itself prescribes the
work-stack formulation); fuel drives structural recursion and is passed
amply at every call site. -/
def freeSectorsRecList : Nat → List Nat → FS → Except Err Unit × FS
  | _, [], fs => (.ok (), fs)
  | 0, _ :: _, fs => (.error .outOfFuel, fs)
  | fuel + 1, id :: rest, fs =>
    match fs.item id with
    | none => freeSectorsRecList fuel rest fs
    | some it =>
      match (if it.isFolder then (.ok (), fs) else freeList it.sectors fs) with
      | (.error e, fs1) => (.error e, fs1)
      | (.ok _, fs1) => freeSectorsRecList fuel (it.children ++ rest) fs1

/-- Work items for `deleteTree`: `visit id` deletes the subtree below
`id` and then disposes of `id` itself; `dispose id` performs the
post-order part — the source's `freeSectorsRecursive(node); delete node;`
(at that point the children have already been destroyed, so the
recursive free touches only the node's own sectors). -/
inductive DelTask where
  | visit (id : Nat)
  | dispose (id : Nat)
  deriving DecidableEq, Repr

/-- `deleteTree(node)`: children first (post-order), then
`freeSectorsRecursive(node)` and `delete node`, as a work-stack. -/
def deleteTreeTasks : Nat → List DelTask → FS → Except Err Unit × FS
  | _, [], fs => (.ok (), fs)
  | 0, _ :: _, fs => (.error .outOfFuel, fs)
  | fuel + 1, .visit id :: rest, fs =>
    match fs.item id with
    | none => deleteTreeTasks fuel rest fs
    | some it =>
      deleteTreeTasks fuel (it.children.map DelTask.visit ++ (DelTask.dispose id :: rest)) fs
  | fuel + 1, .dispose id :: rest, fs =>
    match freeSectorsRecList (fs.items.length + 1) [id] fs with
    | (.error e, fs1) => (.error e, fs1)
    | (.ok _, fs1) => deleteTreeTasks fuel rest (fs1.deleteItem id)

def deleteTreeAux (fuel id : Nat) (fs : FS) : Except Err Unit × FS :=
  deleteTreeTasks fuel [.visit id] fs

mutual
/-- `copyItem(source, newParent)`: allocate a fresh node copying kind,
name and content; clear its sectors and `saveToDisk` it when it is a
file; then copy the children in order, pushing each copy into the new
node's children list.  Returns the new node's index.  Fuel decreases on
every call (structural recursion); call sites pass ample fuel. -/
def copyItemAux : Nat → Nat → Nat → FS → Except Err Nat × FS
  | 0, _, _, fs => (.error .outOfFuel, fs)
  | fuel + 1, src, parentId, fs =>
    match fs.item src with
    | none => (.error .notFound, fs)
    | some s =>
      let p := fs.newItem { isFolder := s.isFolder, name := s.name,
                            content := s.content, sectors := [],
                            children := [], parent := some parentId }
      match (if s.isFolder then (.ok (), p.2) else saveToDisk p.1 p.2) with
      | (.error e, fs1) => (.error e, fs1)
      | (.ok _, fs1) =>
        match copyChildren fuel s.children p.1 fs1 with
        | (.error e, fs2) => (.error e, fs2)
        | (.ok _, fs2) => (.ok p.1, fs2)
termination_by structural fuel _ _ _ => fuel

def copyChildren : Nat → List Nat → Nat → FS → Except Err Unit × FS
  | _, [], _, fs => (.ok (), fs)
  | 0, _ :: _, _, fs => (.error .outOfFuel, fs)
  | fuel + 1, c :: rest, newParent, fs =>
    match copyItemAux fuel c newParent fs with
    | (.error e, fs1) => (.error e, fs1)
    | (.ok newChild, fs1) =>
      let fs2 := fs1.modifyItem newParent
        (fun it => { it with children := it.children ++ [newChild] })
      copyChildren fuel rest newParent fs2
termination_by structural fuel _ _ _ => fuel
end

/-! ## Public operations -/

/-- `dest.find_last_of('/')` on the character list: rightmost index. -/
def lastIdxOf (c : Char) : List Char → Option Nat
  | [] => none
  | x :: xs =>
    match lastIdxOf c xs with
    | some i => some (i + 1)
    | none => if x = c then some 0 else none

/-- The destination split shared by the fallback branches of `cp` and
`mv`: no slash means directory `"."` and the whole string as name,
otherwise split at the last slash. -/
def splitLastSlash (dest : String) : String × String :=
  match lastIdxOf '/' dest.toList with
  | none => (".", dest)
  | some i => (String.mk (dest.toList.take i), String.mk (dest.toList.drop (i + 1)))

/-- `cd(path)`: resolve, require a directory, set `currentDir`. -/
def FS.cd (fs : FS) (path : String) : FS × Option Err :=
  match getItem fs path with
  | none => (fs, some .notFound)
  | some t =>
    match fs.item t with
    | none => (fs, some .notFound)
    | some ti =>
      if ti.isFolder then ({ fs with currentDir := t }, none)
      else (fs, some .notADirectory)

/-- The per-segment loop of `mkdir`: reject empty/dot segments and
invalid names, descend into an existing directory, fail on an existing
file of the same name, otherwise create the directory and descend. -/
def mkdirLoop : List String → Nat → FS → Except Err Nat × FS
  | [], cur, fs => (.ok cur, fs)
  | part :: rest, cur, fs =>
    if part = "" ∨ part = "." ∨ part = ".." then (.error .invalidName, fs)
    else if ¬ isValidName part then (.error .invalidName, fs)
    else
      match findChild fs (fs.childrenOf cur) part with
      | some (cid, ci) =>
        if ci.isFolder then mkdirLoop rest cid fs
        else (.error .nameConflict, fs)
      | none =>
        let p := fs.newItem { isFolder := true, name := part, content := [],
                              sectors := [], children := [], parent := some cur }
        let fs2 := p.2.modifyItem cur
          (fun it => { it with children := it.children ++ [p.1] })
        mkdirLoop rest p.1 fs2

/-- `mkdir(path)`: parent-creating semantics along the split path,
starting at the root for absolute paths. -/
def FS.mkdir (fs : FS) (path : String) : FS × Option Err :=
  if path = "" then (fs, some .invalidName)
  else
    match hp : splitPath path with
    | [] => (fs, some .invalidName)
    | _ :: _ =>
      match mkdirLoop (splitPath path)
          (if startsWithSlash path then fs.root else fs.currentDir) fs with
      | (.ok _, fs1) => (fs1, none)
      | (.error e, fs1) => (fs1, some e)

/-- `touch(name)`: create an empty file child of the current directory.
(The source does not catch the exceptions thrown here; we still report
them as the error component, with the state at the throw point.) -/
def FS.touch (fs : FS) (filename : String) : FS × Option Err :=
  if ¬ isValidName filename then (fs, some .invalidName)
  else
    match findChild fs (fs.childrenOf fs.currentDir) filename with
    | some _ => (fs, some .alreadyExists)
    | none =>
      let p := fs.newItem { isFolder := false, name := filename, content := [],
                            sectors := [], children := [], parent := some fs.currentDir }
      let fs2 := p.2.modifyItem fs.currentDir
        (fun it => { it with children := it.children ++ [p.1] })
      match saveToDisk p.1 fs2 with
      | (.ok _, fs3) => (fs3, none)
      | (.error e, fs3) => (fs3, some e)

/-- `rm(name, recursive)`: find the direct child by name; refuse a
non-empty directory without `recursive`; otherwise unlink it from the
current directory's children and `deleteTree` it. -/
def FS.rm (fs : FS) (name : String) (recursive : Bool) : FS × Option Err :=
  match findChild fs (fs.childrenOf fs.currentDir) name with
  | none => (fs, some .notFound)
  | some (tid, tit) =>
    if tit.isFolder ∧ tit.children ≠ [] ∧ ¬ recursive then (fs, some .notEmpty)
    else
      let fs1 := fs.modifyItem fs.currentDir
        (fun it => { it with children := it.children.erase tid })
      match deleteTreeAux (2 * fs1.items.length + 2) tid fs1 with
      | (.ok _, fs2) => (fs2, none)
      | (.error e, fs2) => (fs2, some e)

/-- The fallback branch of `cp` (destination does not resolve to an
existing directory): split at the last slash, resolve the directory
part, check the name, deep-copy, rename the copy, attach it. -/
def cpFallback (fs : FS) (srcId : Nat) (dest : String) : FS × Option Err :=
  let pr := splitLastSlash dest
  match getItem fs pr.1 with
  | none => (fs, some .notFound)
  | some ddId =>
    match fs.item ddId with
    | none => (fs, some .notFound)
    | some dd =>
      if ¬ dd.isFolder then (fs, some .notFound)
      else
        match findChild fs dd.children pr.2 with
        | some _ => (fs, some .alreadyExists)
        | none =>
          match copyItemAux (2 * fs.items.length + 2) srcId ddId fs with
          | (.error e, fs1) => (fs1, some e)
          | (.ok newId, fs1) =>
            let fs2 := fs1.modifyItem newId (fun it => { it with name := pr.2 })
            (fs2.modifyItem ddId
              (fun it => { it with children := it.children ++ [newId] }), none)

/-- `cp(source, dest)`: resolve the source; if `dest` resolves to a
directory, deep-copy under the source's own name inside it, else use the
fallback branch. -/
def FS.cp (fs : FS) (source dest : String) : FS × Option Err :=
  match getItem fs source with
  | none => (fs, some .notFound)
  | some srcId =>
    match getItem fs dest with
    | some destId =>
      match fs.item destId with
      | some dit =>
        if dit.isFolder then
          let destName := match fs.item srcId with
                          | some s => s.name
                          | none => ""
          match findChild fs dit.children destName with
          | some _ => (fs, some .alreadyExists)
          | none =>
            match copyItemAux (2 * fs.items.length + 2) srcId destId fs with
            | (.error e, fs1) => (fs1, some e)
            | (.ok newId, fs1) =>
              (fs1.modifyItem destId
                (fun it => { it with children := it.children ++ [newId] }), none)
        else cpFallback fs srcId dest
      | none => cpFallback fs srcId dest
    | none => cpFallback fs srcId dest

/-- The `while (checkItem) { if (checkItem == srcItem) throw; ... }`
ancestor walk of `mv`, starting at whatever `dest` resolved to. -/
def ancestorCheck : Nat → Option Nat → Nat → FS → Bool
  | 0, _, _, _ => false
  | _ + 1, none, _, _ => false
  | fuel + 1, some cid, srcId, fs =>
    if cid = srcId then true
    else ancestorCheck fuel ((fs.item cid).bind Item.parent) srcId fs

/-- The fallback branch of `mv` (destination does not resolve to an
existing directory): split at the last slash, resolve the directory
part, check for a colliding name other than the source itself, then
rename and (if the parent changes) relink. -/
def mvFallback (fs : FS) (srcId : Nat) (srcIt : Item) (dest : String) : FS × Option Err :=
  let pr := splitLastSlash dest
  match getItem fs pr.1 with
  | none => (fs, some .notFound)
  | some ddId =>
    match fs.item ddId with
    | none => (fs, some .notFound)
    | some dd =>
      if ¬ dd.isFolder then (fs, some .notFound)
      else if dd.children.any (fun c =>
          match fs.item c with
          | some ci => ci.name = pr.2 ∧ c ≠ srcId
          | none => false) then (fs, some .alreadyExists)
      else
        let sameParent := srcIt.parent = some ddId
        let fs1 := if sameParent then fs
          else match srcIt.parent with
            | some p => fs.modifyItem p
                (fun it => { it with children := it.children.erase srcId })
            | none => fs
        let fs2 := fs1.modifyItem srcId (fun it => { it with name := pr.2 })
        let fs3 := if sameParent then fs2
          else (fs2.modifyItem srcId (fun it => { it with parent := some ddId })).modifyItem
            ddId (fun it => { it with children := it.children ++ [srcId] })
        (fs3, none)

/-- `mv(source, dest)`: the directory-into-own-subtree ancestor check is
walked only from the node `dest` resolves to; then either move under a
resolving destination directory (keeping the name) or take the rename
fallback branch. -/
def FS.mv (fs : FS) (source dest : String) : FS × Option Err :=
  match getItem fs source with
  | none => (fs, some .notFound)
  | some srcId =>
    match fs.item srcId with
    | none => (fs, some .notFound)
    | some srcIt =>
      if srcIt.isFolder ∧ ancestorCheck fs.items.length (getItem fs dest) srcId fs then
        (fs, some .invalidOperation)
      else
        match getItem fs dest with
        | some destId =>
          match fs.item destId with
          | some dit =>
            if dit.isFolder then
              if dit.children.any (fun c =>
                  match fs.item c with
                  | some ci => ci.name = srcIt.name
                  | none => false) then (fs, some .alreadyExists)
              else if srcIt.parent ≠ some destId then
                let fs1 := match srcIt.parent with
                  | some p => fs.modifyItem p
                      (fun it => { it with children := it.children.erase srcId })
                  | none => fs
                let fs2 := fs1.modifyItem srcId (fun it => { it with parent := some destId })
                (fs2.modifyItem destId
                  (fun it => { it with children := it.children ++ [srcId] }), none)
              else (fs, none)
            else mvFallback fs srcId srcIt dest
          | none => mvFallback fs srcId srcIt dest
        | none => mvFallback fs srcId srcIt dest

/-- `put(realFile, fsPath)`: the real-file read is out-of-scope I/O glue
(spec §1, §6: `put(name, bytes)` consumes an already-read byte buffer),
so the content arrives as the `content` argument; the modelled part is
the in-tree logic after the read: resolve the destination directory,
reject a same-named existing *file* child, create the node, attach it,
`saveToDisk` it. -/
def FS.put (fs : FS) (realFile : String) (content : List Char) (fsPath : String) :
    FS × Option Err :=
  match getItem fs fsPath with
  | none => (fs, some .notFound)
  | some dId =>
    match fs.item dId with
    | none => (fs, some .notFound)
    | some d =>
      if ¬ d.isFolder then (fs, some .notFound)
      else if d.children.any (fun c =>
          match fs.item c with
          | some ci => ¬ ci.isFolder ∧ ci.name = realFile
          | none => false) then (fs, some .alreadyExists)
      else
        let p := fs.newItem { isFolder := false, name := realFile,
                              content := content, sectors := [],
                              children := [], parent := some dId }
        let fs2 := p.2.modifyItem dId
          (fun it => { it with children := it.children ++ [p.1] })
        match saveToDisk p.1 fs2 with
        | (.ok _, fs3) => (fs3, none)
        | (.error e, fs3) => (fs3, some e)

/-- The writing loop of `defrag` for one file: assign consecutive ids
starting at `next`, failing with DiskFull when `next` reaches capacity. -/
def defragWrite (fid : Nat) : List (List Char) → Nat → FS → Except Err Nat × FS
  | [], next, fs => (.ok next, fs)
  | c :: rest, next, fs =>
    if next ≥ fs.totalSectors then (.error .diskFull, fs)
    else
      let fs1 := { fs with sectorMap := fs.sectorMap.set next true }
      let fs2 := fs1.modifyItem fid (fun it => { it with sectors := it.sectors ++ [next] })
      let fs3 := { fs2 with disk := growDisk next fs2.disk }
      let fs4 := { fs3 with disk := fs3.disk.set next c }
      defragWrite fid rest (next + 1) fs4

/-- The outer loop of `defrag` over the collected files. -/
def defragLoop : List Nat → Nat → FS → Except Err Nat × FS
  | [], next, fs => (.ok next, fs)
  | fid :: rest, next, fs =>
    match fs.item fid with
    | none => defragLoop rest next fs
    | some f =>
      if f.isFolder then defragLoop rest next fs
      else
        let fs1 := fs.modifyItem fid (fun it => { it with sectors := [] })
        match defragWrite fid (chunks f.content) next fs1 with
        | (.error e, fs2) => (.error e, fs2)
        | (.ok next1, fs2) => defragLoop rest next1 fs2

/-- The depth-first file enumeration `defrag` starts from the root. -/
def defragFiles (fs : FS) : Except Err (List Nat) :=
  match fs.item fs.root with
  | none => .error .notFound
  | some rit => collectFilesAux fs (fs.items.length + 1) rit.children

/-- `defrag()`: collect all files, clear the whole bitmap, then reassign
consecutive sectors file by file. -/
def FS.defrag (fs : FS) : FS × Option Err :=
  match defragFiles fs with
  | .error e => (fs, some e)
  | .ok files =>
    let fs1 := { fs with sectorMap := List.replicate fs.sectorMap.length false }
    match defragLoop files 0 fs1 with
    | (.ok _, fs2) => (fs2, none)
    | (.error e, fs2) => (fs2, some e)

/-- `get(filename)`: display/export a file's content; no filesystem
mutation (the real-file write is out-of-scope I/O). -/
def FS.get (fs : FS) (filename : String) : FS × Option Err :=
  match getItem fs filename with
  | none => (fs, some .notFound)
  | some fid =>
    match fs.item fid with
    | none => (fs, some .notFound)
    | some it => if it.isFolder then (fs, some .notFound) else (fs, none)

/-- The public operation surface, for stating properties quantified over
every public operation.  `pwd`, `ls` and `info` only print. -/
inductive Op where
  | pwd
  | cd (path : String)
  | ls (path : String)
  | mkdir (path : String)
  | touch (name : String)
  | rm (name : String) (recursive : Bool)
  | cp (source dest : String)
  | mv (source dest : String)
  | get (filename : String)
  | put (realFile : String) (content : List Char) (fsPath : String)
  | info (path : String)
  | defrag

/-- Run one public operation. -/
def FS.applyOp (fs : FS) : Op → FS × Option Err
  | .pwd => (fs, none)
  | .cd path => fs.cd path
  | .ls _ => (fs, none)
  | .mkdir path => fs.mkdir path
  | .touch name => fs.touch name
  | .rm name r => fs.rm name r
  | .cp s d => fs.cp s d
  | .mv s d => fs.mv s d
  | .get f => fs.get f
  | .put r c p => fs.put r c p
  | .info _ => (fs, none)
  | .defrag => fs.defrag

/-! ## List helpers -/

theorem getD_some_lt {α} {l : List α} {i : Nat} {a d : α} (h : l.getD i d = a)
    (hne : a ≠ d) : i < l.length := by
  by_contra hge
  rw [List.getD_eq_default _ _ (by omega)] at h
  exact hne h.symm

theorem item_some_lt {fs : FS} {id : Nat} {it : Item} (h : fs.item id = some it) :
    id < fs.items.length :=
  getD_some_lt h (by simp)

theorem getD_set_self {α} (l : List α) (i : Nat) (a d : α) (h : i < l.length) :
    (l.set i a).getD i d = a := by
  rw [List.getD_eq_getElem _ _ (by simpa using h)]
  simp [List.getElem_set, h]

theorem getD_set_ne {α} (l : List α) (i j : Nat) (a d : α) (h : i ≠ j) :
    (l.set i a).getD j d = l.getD j d := by
  rw [List.getD_eq_getD_get?, List.getD_eq_getD_get?, List.get?_set_ne _ _ h]

theorem getD_snoc_self {α} (l : List α) (a d : α) : (l ++ [a]).getD l.length d = a := by
  rw [List.getD_append_right _ _ _ _ (le_refl _)]
  simp

theorem getD_snoc_lt {α} (l : List α) (a d : α) (j : Nat) (h : j < l.length) :
    (l ++ [a]).getD j d = l.getD j d :=
  List.getD_append _ _ _ _ h

theorem getD_snoc_gt {α} (l : List α) (a d : α) (j : Nat) (h : l.length < j) :
    (l ++ [a]).getD j d = d := by
  rw [List.getD_eq_default]
  simp
  omega

theorem getD_replicate {α} (x d : α) (n j : Nat) :
    (List.replicate n x).getD j d = if j < n then x else d := by
  by_cases h : j < n
  · rw [List.getD_eq_getElem _ _ (by simpa using h)]
    simp [h]
  · rw [List.getD_eq_default _ _ (by simpa using h)]
    simp [h]

/-! ## `firstFree` characterization and claim C7 -/

theorem firstFree_some {l : List Bool} {i : Nat} (h : firstFree l = some i) :
    i < l.length ∧ l.getD i false = false ∧ ∀ j < i, l.getD j false = true := by
  induction l generalizing i with
  | nil => simp [firstFree] at h
  | cons b bs ih =>
    by_cases hb : b
    · simp [firstFree, hb] at h
      obtain ⟨i', hi', rfl⟩ := h
      obtain ⟨h1, h2, h3⟩ := ih hi'
      refine ⟨by simpa using h1, by simpa using h2, ?_⟩
      intro j hj
      cases j with
      | zero => simpa using hb
      | succ j' =>
        simpa using h3 j' (by omega)
    · simp [firstFree, hb] at h
      subst h
      refine ⟨by simp, by simpa using hb, ?_⟩
      intro j hj
      omega

theorem firstFree_none {l : List Bool} (h : firstFree l = none) :
    ∀ j < l.length, l.getD j false = true := by
  induction l with
  | nil => simp
  | cons b bs ih =>
    by_cases hb : b
    · simp [firstFree, hb] at h
      intro j hj
      cases j with
      | zero => simpa using hb
      | succ j' => simpa using ih h j' (by simpa using hj)
    · simp [firstFree, hb] at h

theorem firstFree_isSome {l : List Bool} {i : Nat} (h1 : i < l.length)
    (h2 : l.getD i false = false) : ∃ j, firstFree l = some j ∧ j ≤ i := by
  induction l generalizing i with
  | nil => simp at h1
  | cons b bs ih =>
    by_cases hb : b
    · cases i with
      | zero =>
        simp at h2
        simp [h2] at hb
      | succ i' =>
        obtain ⟨j, hj, hle⟩ := ih (i := i') (by simpa using h1) (by simpa using h2)
        exact ⟨j + 1, by simp [firstFree, hb, hj], by omega⟩
    · exact ⟨0, by simp [firstFree, hb], by omega⟩

/-- C7: `allocateSector` scans ids in ascending order: on success it
returns the least free id and marks exactly it allocated; it fails with
DiskFull precisely when no id is free; and after `freeSector id`
succeeds, the next allocation returns `id` or a lower (free) id. -/
theorem claim_C7_allocator (fs : FS) :
    (∀ i fs', allocateSector fs = (.ok i, fs') →
      i < fs.sectorMap.length ∧ fs.sectorMap.getD i false = false ∧
      (∀ j < i, fs.sectorMap.getD j false = true) ∧
      fs' = { fs with sectorMap := fs.sectorMap.set i true }) ∧
    ((allocateSector fs).1 = .error .diskFull ↔
      ∀ j < fs.sectorMap.length, fs.sectorMap.getD j false = true) ∧
    (∀ id fs1, id < fs.sectorMap.length → freeSector id fs = (.ok (), fs1) →
      ∃ j, j ≤ id ∧ ∃ fs2, allocateSector fs1 = (.ok j, fs2)) := by
  refine ⟨?_, ?_, ?_⟩
  · intro i fs' h
    match hf : firstFree fs.sectorMap with
    | some k =>
      simp [allocateSector, hf] at h
      obtain ⟨rfl, rfl⟩ := h
      obtain ⟨h1, h2, h3⟩ := firstFree_some hf
      exact ⟨h1, h2, h3, rfl⟩
    | none => simp [allocateSector, hf] at h
  · constructor
    · intro h
      match hf : firstFree fs.sectorMap with
      | some k => simp [allocateSector, hf] at h
      | none => exact firstFree_none hf
    · intro h
      match hf : firstFree fs.sectorMap with
      | some k =>
        obtain ⟨h1, h2, _⟩ := firstFree_some hf
        rw [h k h1] at h2
        simp at h2
      | none => simp [allocateSector, hf]
  · intro id fs1 hlt h
    have hfs1 : fs1 = { fs with sectorMap := fs.sectorMap.set id false } := by
      simp [freeSector, Nat.not_le_of_lt hlt] at h
      exact h.symm
    have hfree : fs1.sectorMap.getD id false = false := by
      rw [hfs1]
      exact getD_set_self _ _ _ _ (by simpa using hlt)
    have hlen : id < fs1.sectorMap.length := by
      rw [hfs1]; simpa using hlt
    obtain ⟨j, hj, hle⟩ := firstFree_isSome hlen hfree
    exact ⟨j, hle, { fs1 with sectorMap := fs1.sectorMap.set j true },
      by simp [allocateSector, hj]⟩

/-- Witness for C7: on bitmap `[true, true]`, freeing id 0 makes the next
allocation return 0 again (lowest-id-first reuse). -/
theorem claim_C7_witness :
    ∃ j, j ≤ 0 ∧ ∃ fs2,
      allocateSector ((freeSector 0 { FS.init 2 with sectorMap := [true, true] }).2) =
        (.ok j, fs2) :=
  (claim_C7_allocator { FS.init 2 with sectorMap := [true, true] }).2.2 0
    ((freeSector 0 { FS.init 2 with sectorMap := [true, true] }).2)
    (by decide) (by rfl)

/-! ## Path resolution: claim C8 -/

theorem findChild_some {fs : FS} {cs : List Nat} {name : String} {c : Nat} {ci : Item}
    (h : findChild fs cs name = some (c, ci)) :
    c ∈ cs ∧ fs.item c = some ci ∧ ci.name = name := by
  induction cs with
  | nil => simp [findChild] at h
  | cons x rest ih =>
    match hx : fs.item x with
    | some xi =>
      rw [findChild] at h
      simp only [hx] at h
      by_cases hn : xi.name = name
      · rw [if_pos hn] at h
        simp at h
        obtain ⟨rfl, rfl⟩ := h
        exact ⟨by simp, hx, hn⟩
      · rw [if_neg hn] at h
        obtain ⟨h1, h2, h3⟩ := ih h
        exact ⟨by simp [h1], h2, h3⟩
    | none =>
      rw [findChild] at h
      simp only [hx] at h
      obtain ⟨h1, h2, h3⟩ := ih h
      exact ⟨by simp [h1], h2, h3⟩

theorem findChild_none {fs : FS} {cs : List Nat} {name : String}
    (h : findChild fs cs name = none) :
    ∀ c ∈ cs, ∀ ci, fs.item c = some ci → ci.name ≠ name := by
  induction cs with
  | nil => simp
  | cons x rest ih =>
    intro c hc ci hci
    match hx : fs.item x with
    | some xi =>
      rw [findChild] at h
      simp only [hx] at h
      by_cases hn : xi.name = name
      · rw [if_pos hn] at h
        exact absurd h (by simp)
      · rw [if_neg hn] at h
        rcases List.mem_cons.mp hc with rfl | hmem
        · rw [hx] at hci
          cases hci
          exact hn
        · exact ih h c hmem ci hci
    | none =>
      rw [findChild] at h
      simp only [hx] at h
      rcases List.mem_cons.mp hc with rfl | hmem
      · rw [hx] at hci
        cases hci
      · exact ih h c hmem ci hci

/-- C8: path resolution.  The special cases `""`/`"."` (current node),
`"/"` (root) and `".."` (parent, or self at the root); every other path
is split on `/` with empty segments discarded and walked from the root
exactly when it begins with `/`; in the walk `.` is a no-op, `..` moves
to the parent (no-op when there is none, i.e. at the root), and any
other segment selects the child carrying exactly that name, yielding the
checkable not-found result `none` when no such child exists.  Resolution
is read-only by construction (`getItem : FS → String → Option Nat` does
not return a state); additionally `cd` never touches the node arena. -/
theorem claim_C8_resolution (fs : FS) :
    (getItem fs "" = some fs.currentDir) ∧
    (getItem fs "." = some fs.currentDir) ∧
    (getItem fs "/" = some fs.root) ∧
    (getItem fs ".." =
      some (((fs.item fs.currentDir).bind Item.parent).getD fs.currentDir)) ∧
    (∀ path, path ≠ "" → path ≠ "." → path ≠ "/" → path ≠ ".." →
      getItem fs path =
        walkSegs fs (if startsWithSlash path then fs.root else fs.currentDir)
          (splitPath path)) ∧
    (∀ cur, walkSegs fs cur [] = some cur) ∧
    (∀ cur rest, walkSegs fs cur ("." :: rest) = walkSegs fs cur rest) ∧
    (∀ cur rest, walkSegs fs cur (".." :: rest) =
      walkSegs fs (((fs.item cur).bind Item.parent).getD cur) rest) ∧
    (∀ cur seg rest c ci, seg ≠ "." → seg ≠ ".." →
      findChild fs (fs.childrenOf cur) seg = some (c, ci) →
      fs.item c = some ci ∧ ci.name = seg ∧ c ∈ fs.childrenOf cur ∧
      walkSegs fs cur (seg :: rest) = walkSegs fs c rest) ∧
    (∀ cur seg rest, seg ≠ "." → seg ≠ ".." →
      findChild fs (fs.childrenOf cur) seg = none →
      walkSegs fs cur (seg :: rest) = none ∧
      ∀ c ∈ fs.childrenOf cur, ∀ ci, fs.item c = some ci → ci.name ≠ seg) ∧
    (∀ path, (fs.cd path).1.items = fs.items ∧
      (fs.cd path).1.disk = fs.disk ∧ (fs.cd path).1.sectorMap = fs.sectorMap) := by
  refine ⟨?_, ?_, ?_, ?_, ?_, ?_, ?_, ?_, ?_, ?_, ?_⟩
  · rw [getItem, if_pos (by decide)]
  · rw [getItem, if_pos (by decide)]
  · rw [getItem, if_neg (by decide), if_pos (by decide)]
  · rw [getItem, if_neg (by decide), if_neg (by decide), if_pos (by decide)]
    cases (fs.item fs.currentDir).bind Item.parent <;> simp
  · intro path h1 h2 h3 h4
    rw [getItem, if_neg (by simp [h1, h2]), if_neg (by simp [h3]), if_neg (by simp [h4])]
  · intro cur
    rfl
  · intro cur rest
    rw [walkSegs, if_pos rfl]
  · intro cur rest
    rw [walkSegs, if_neg (by decide), if_pos rfl]
    cases (fs.item cur).bind Item.parent <;> simp
  · intro cur seg rest c ci hs1 hs2 hfc
    obtain ⟨hmem, hitem, hname⟩ := findChild_some hfc
    refine ⟨hitem, hname, hmem, ?_⟩
    rw [walkSegs, if_neg hs1, if_neg hs2, hfc]
  · intro cur seg rest hs1 hs2 hfc
    refine ⟨?_, findChild_none hfc⟩
    rw [walkSegs, if_neg hs1, if_neg hs2, hfc]
  · intro path
    rw [FS.cd]
    match h : getItem fs path with
    | none => simp
    | some t =>
      match h2 : fs.item t with
      | none => simp [h2]
      | some ti =>
        by_cases hf : ti.isFolder <;> simp [h2, hf]

/-- Witness for C8 (the quantified child-step rules have hypotheses):
on `FS.init 1` extended by a directory `a`, the segment `a` steps into
the child and a missing segment yields not-found. -/
theorem claim_C8_witness :
    getItem ((FS.mkdir (FS.init 1) "a").1) "" =
      some ((FS.mkdir (FS.init 1) "a").1).currentDir ∧
    walkSegs ((FS.mkdir (FS.init 1) "a").1) 0 ["a"] = walkSegs ((FS.mkdir (FS.init 1) "a").1) 1 [] ∧
    walkSegs ((FS.mkdir (FS.init 1) "a").1) 0 ["zz"] = none := by
  refine ⟨(claim_C8_resolution _).1, ?_, ?_⟩
  · exact ((claim_C8_resolution _).2.2.2.2.2.2.2.2.1 0 "a" [] 1
      { isFolder := true, name := "a", content := [], sectors := [],
        children := [], parent := some 0 }
      (by decide) (by decide) (by decide)).2.2.2
  · exact ((claim_C8_resolution _).2.2.2.2.2.2.2.2.2.1 0 "zz" []
      (by decide) (by decide) (by decide)).1

/-! ## The chunk-count arithmetic -/

theorem numChunks_eq_aux : ∀ n (l : List Char), l.length ≤ n →
    numChunks l = (l.length + SECTOR_SIZE - 1) / SECTOR_SIZE := by
  intro n
  induction n with
  | zero =>
    intro l h
    have hl : l = [] := List.length_eq_zero.mp (by omega)
    subst hl
    simp [numChunks, chunks, chunksAux, SECTOR_SIZE]
  | succ n ih =>
    intro l h
    by_cases hl : l = []
    · subst hl
      simp [numChunks, chunks, chunksAux, SECTOR_SIZE]
    · have h2 : numChunks l = 1 + numChunks (l.drop SECTOR_SIZE) := by
        rw [numChunks, chunks_eq, if_neg hl]
        simp [numChunks]
        omega
      rw [h2, ih (l.drop SECTOR_SIZE) (by simp [SECTOR_SIZE]; omega)]
      have hpos : 0 < l.length := List.length_pos.mpr hl
      simp [SECTOR_SIZE, List.length_drop]
      omega

/-- `len(sectors)` target value: `numChunks` is exactly
`ceil(len(content) / SECTOR_SIZE)`. -/
theorem numChunks_eq (l : List Char) :
    numChunks l = (l.length + SECTOR_SIZE - 1) / SECTOR_SIZE :=
  numChunks_eq_aux l.length l (le_refl _)

/-! ## Concrete traces for C1, C2, C3 -/

/-- 65 bytes of content: needs two sectors. -/
def content65 : List Char := List.replicate 65 'x'

/-- Decidable check of the spec §3 allocation invariant on a state: a
sector id is marked allocated iff it lies in the sectors list of exactly
one live file reachable from the root (enumerated by the same traversal
`defrag` uses). -/
def bitmapConsistent (fs : FS) : Bool :=
  match defragFiles fs with
  | .error _ => false
  | .ok files =>
    (List.range fs.totalSectors).all (fun s =>
      fs.sectorMap.getD s false ==
        ((files.countP (fun f =>
          match fs.item f with
          | some it => it.sectors.contains s
          | none => false)) == 1))

/-- C1: the bitmap invariant *does* hold after the preparing `put`, but
a `cp` that hits DiskFull mid-copy leaks the partially built node: when
`cp` returns with the error, sector 2 is still marked allocated yet no
file reachable from the root lists it — the invariant is broken across
an operation's return, outside the write/defrag windows the claim
allows.  (On capacity 3: `put` a 65-byte file = sectors 0,1; `cp` copies
sector 2, then fails; the copy is never attached to the tree.) -/
theorem claim_C1_orphan_after_failed_cp :
    bitmapConsistent (FS.put (FS.init 3) "a" content65 "/").1 = true ∧
    (FS.cp (FS.put (FS.init 3) "a" content65 "/").1 "a" "b").2 = some Err.diskFull ∧
    bitmapConsistent (FS.cp (FS.put (FS.init 3) "a" content65 "/").1 "a" "b").1 = false ∧
    (FS.cp (FS.put (FS.init 3) "a" content65 "/").1 "a" "b").1.sectorMap.getD 2 false
      = true ∧
    defragFiles (FS.cp (FS.put (FS.init 3) "a" content65 "/").1 "a" "b").1 = .ok [1] ∧
    ((FS.cp (FS.put (FS.init 3) "a" content65 "/").1 "a" "b").1.item 1).map
      (fun it => it.sectors.contains 2) = some false := by
  decide

/-- The two-directory state `/a/b` used to refute C2. -/
def mvCycleBase : FS := (FS.mkdir ((FS.mkdir (FS.init 2) "a").1) "a/b").1

/-- C2 counterexample: `mv "/a" "/a/b/c"` places directory `/a` (node 1)
inside its own subtree.  `dest` does not resolve, so the ancestor walk is
skipped: `mv` succeeds (error `none`), the directory the node is placed
into (node 2 = `/a/b`) has the source in its ancestor chain, the tree
changes, and the root loses its only child — contradicting the claim
that such an `mv` fails with InvalidOperation and leaves the tree
unchanged. -/
theorem claim_C2_counterexample :
    getItem mvCycleBase "/a" = some 1 ∧
    ((mvCycleBase.item 1).map Item.isFolder = some true) ∧
    ancestorCheck mvCycleBase.items.length (some 2) 1 mvCycleBase = true ∧
    getItem mvCycleBase (splitLastSlash "/a/b/c").1 = some 2 ∧
    (FS.mv mvCycleBase "/a" "/a/b/c").2 = none ∧
    (FS.mv mvCycleBase "/a" "/a/b/c").1 ≠ mvCycleBase ∧
    ((FS.mv mvCycleBase "/a" "/a/b/c").1.item 0).map Item.children = some [] ∧
    ((FS.mv mvCycleBase "/a" "/a/b/c").1.item 1).map Item.parent = some (some 2) := by
  decide

/-- C3 counterexample: `put` of a 65-byte file on a 1-sector disk
returns (with DiskFull), leaving a live File with `len(sectors) = 1`
while `ceil(len(content)/sectorSize) = 2`. -/
theorem claim_C3_counterexample :
    (FS.put (FS.init 1) "a" content65 "/").2 = some Err.diskFull ∧
    ((FS.put (FS.init 1) "a" content65 "/").1.item 1).map
      (fun it => (it.isFolder, it.sectors.length, numChunks it.content)) =
      some (false, 1, 2) := by
  decide

/-! ## Claim C10: dot segments in `mkdir` paths -/

theorem mkdirLoop_append : ∀ (l1 l2 : List String) cur fs,
    mkdirLoop (l1 ++ l2) cur fs =
      match mkdirLoop l1 cur fs with
      | (.ok cur1, fs1) => mkdirLoop l2 cur1 fs1
      | (.error e, fs1) => (.error e, fs1) := by
  intro l1
  induction l1 with
  | nil => intro l2 cur fs; rfl
  | cons part rest ih =>
    intro l2 cur fs
    simp only [List.cons_append, mkdirLoop]
    by_cases h1 : part = "" ∨ part = "." ∨ part = ".."
    · rw [if_pos h1, if_pos h1]
    · rw [if_neg h1, if_neg h1]
      by_cases h2 : isValidName part
      · rw [if_neg (by simpa using h2), if_neg (by simpa using h2)]
        match findChild fs (fs.childrenOf cur) part with
        | some (cid, ci) =>
          by_cases h3 : ci.isFolder
          · simp only [if_pos h3]
            exact ih _ _ _
          · simp only [if_neg h3]
        | none =>
          exact ih _ _ _
      · rw [if_pos (by simpa using h2), if_pos (by simpa using h2)]

theorem mkdirLoop_dot_error : ∀ parts cur fs, ("." ∈ parts ∨ ".." ∈ parts) →
    ∃ e fs1, mkdirLoop parts cur fs = (.error e, fs1) := by
  intro parts
  induction parts with
  | nil => intro cur fs h; simp at h
  | cons part rest ih =>
    intro cur fs h
    rw [mkdirLoop]
    by_cases h1 : part = "" ∨ part = "." ∨ part = ".."
    · exact ⟨.invalidName, fs, by rw [if_pos h1]⟩
    · have hrest : "." ∈ rest ∨ ".." ∈ rest := by
        rcases h with h | h <;> rcases List.mem_cons.mp h with rfl | hm
        · exact absurd (Or.inr (Or.inl rfl)) h1
        · exact Or.inl hm
        · exact absurd (Or.inr (Or.inr rfl)) h1
        · exact Or.inr hm
      rw [if_neg h1]
      by_cases h2 : isValidName part
      · rw [if_neg (by simpa using h2)]
        match findChild fs (fs.childrenOf cur) part with
        | some (cid, ci) =>
          by_cases h3 : ci.isFolder
          · simp only [if_pos h3]
            exact ih _ _ hrest
          · exact ⟨.nameConflict, fs, by simp only [if_neg h3]⟩
        | none =>
          exact ih _ _ hrest
      · exact ⟨.invalidName, fs, by rw [if_pos (by simpa using h2)]⟩

/-- C10: a `mkdir` path whose split segment list contains `.` or `..`
never succeeds: the loop rejects the first such segment with the
invalid-name error, keeping the directories created for the earlier
segments (the state is exactly the one the prefix produced) and creating
nothing at or beyond the dot segment — even though `getItem` treats `.`
and `..` as navigation (claim C8). -/
theorem claim_C10_mkdir_dot (fs : FS) (path : String)
    (hdot : "." ∈ splitPath path ∨ ".." ∈ splitPath path) :
    (FS.mkdir fs path).2 ≠ none ∧
    (∀ pre bad rest cur1 fs1,
      splitPath path = pre ++ bad :: rest →
      (bad = "." ∨ bad = "..") →
      mkdirLoop pre (if startsWithSlash path then fs.root else fs.currentDir) fs
        = (.ok cur1, fs1) →
      FS.mkdir fs path = (fs1, some .invalidName)) := by
  have hne : path ≠ "" := by
    intro h
    subst h
    simp [splitPath, pathSegs, pathSegsAux] at hdot
  have hparts : splitPath path ≠ [] := by
    intro h
    rw [h] at hdot
    simp at hdot
  constructor
  · rw [FS.mkdir, if_neg hne]
    match hs : splitPath path with
    | [] => exact absurd hs hparts
    | q :: qs =>
      obtain ⟨e, fs1, hrun⟩ := mkdirLoop_dot_error (q :: qs)
        (if startsWithSlash path then fs.root else fs.currentDir) fs (hs ▸ hdot)
      simp only [hrun]
      simp
  · intro pre bad rest cur1 fs1 hsplit hbad hpre
    rw [FS.mkdir, if_neg hne]
    match hs : splitPath path with
    | [] => exact absurd hs hparts
    | q :: qs =>
      have : mkdirLoop (q :: qs)
          (if startsWithSlash path then fs.root else fs.currentDir) fs
          = (.error .invalidName, fs1) := by
        rw [← hs, hsplit, mkdirLoop_append, hpre]
        show mkdirLoop (bad :: rest) cur1 fs1 = (.error .invalidName, fs1)
        rw [mkdirLoop]
        rcases hbad with rfl | rfl
        · rw [if_pos (by simp)]
        · rw [if_pos (by simp)]
      simp only [this]

/-- Witness for C10: `mkdir "a/./b"` on a fresh filesystem fails with the
invalid-name error while keeping the directory created for `a`. -/
theorem claim_C10_witness :
    (FS.mkdir (FS.init 1) "a/./b").2 ≠ none ∧
    FS.mkdir (FS.init 1) "a/./b" =
      ((mkdirLoop ["a"] 0 (FS.init 1)).2, some .invalidName) := by
  have h := claim_C10_mkdir_dot (FS.init 1) "a/./b" (by decide)
  refine ⟨h.1, ?_⟩
  have h2 := h.2 ["a"] "." ["b"] 1 ((mkdirLoop ["a"] 0 (FS.init 1)).2)
    (by decide) (by decide) (by decide)
  simpa using h2

/-! ## Claim C2 (amended): the subtree check of `mv` -/

/-- C2 (amended): when `source` resolves to a directory and the ancestor
walk that `mv` performs — started at whatever node `dest` itself
resolves to — encounters `source`, `mv` fails with InvalidOperation and
the state is completely unchanged.  (The walk is skipped whenever `dest`
does not resolve, which is what the counterexample
`claim_C2_counterexample` exploits.) -/
theorem claim_C2_amended (fs : FS) (source dest : String) (srcId : Nat) (srcIt : Item)
    (h1 : getItem fs source = some srcId)
    (h2 : fs.item srcId = some srcIt)
    (h3 : srcIt.isFolder = true)
    (h4 : ancestorCheck fs.items.length (getItem fs dest) srcId fs = true) :
    FS.mv fs source dest = (fs, some Err.invalidOperation) := by
  rw [FS.mv]
  simp only [h1, h2]
  rw [if_pos ⟨h3, h4⟩]

/-- Witness for C2 (amended): moving `/a` into its resolving descendant
`/a/b` is rejected with the state unchanged. -/
theorem claim_C2_witness :
    FS.mv mvCycleBase "/a" "/a/b" = (mvCycleBase, some Err.invalidOperation) :=
  claim_C2_amended mvCycleBase "/a" "/a/b" 1
    { isFolder := true, name := "a", content := [], sectors := [],
      children := [2], parent := some 0 }
    (by decide) (by decide) (by decide) (by decide)

/-! ## State-manipulation lemmas -/

theorem item_modifyItem_self {fs : FS} {id : Nat} {it : Item} (f : Item → Item)
    (h : fs.item id = some it) : (fs.modifyItem id f).item id = some (f it) := by
  rw [FS.modifyItem]
  rw [FS.item] at h
  simp only [h]
  rw [FS.item]
  exact getD_set_self _ _ _ _ (item_some_lt h)

theorem item_modifyItem_ne (fs : FS) (id : Nat) (f : Item → Item) (j : Nat)
    (h : j ≠ id) : (fs.modifyItem id f).item j = fs.item j := by
  rw [FS.modifyItem]
  match fs.items.getD id none with
  | some it =>
    rw [FS.item, FS.item]
    exact getD_set_ne _ _ _ _ _ (fun hh => h hh.symm)
  | none => rfl

theorem modifyItem_none {fs : FS} {id : Nat} (f : Item → Item)
    (h : fs.item id = none) : fs.modifyItem id f = fs := by
  rw [FS.modifyItem]
  rw [FS.item] at h
  simp only [h]

@[simp] theorem modifyItem_sectorMap (fs : FS) (id : Nat) (f : Item → Item) :
    (fs.modifyItem id f).sectorMap = fs.sectorMap := by
  rw [FS.modifyItem]; split <;> rfl

@[simp] theorem modifyItem_disk (fs : FS) (id : Nat) (f : Item → Item) :
    (fs.modifyItem id f).disk = fs.disk := by
  rw [FS.modifyItem]; split <;> rfl

@[simp] theorem modifyItem_root (fs : FS) (id : Nat) (f : Item → Item) :
    (fs.modifyItem id f).root = fs.root := by
  rw [FS.modifyItem]; split <;> rfl

@[simp] theorem modifyItem_currentDir (fs : FS) (id : Nat) (f : Item → Item) :
    (fs.modifyItem id f).currentDir = fs.currentDir := by
  rw [FS.modifyItem]; split <;> rfl

@[simp] theorem modifyItem_totalSectors (fs : FS) (id : Nat) (f : Item → Item) :
    (fs.modifyItem id f).totalSectors = fs.totalSectors := by
  rw [FS.modifyItem]; split <;> rfl

@[simp] theorem modifyItem_items_length (fs : FS) (id : Nat) (f : Item → Item) :
    (fs.modifyItem id f).items.length = fs.items.length := by
  rw [FS.modifyItem]; split <;> simp

theorem item_newItem_self (fs : FS) (it : Item) :
    (fs.newItem it).2.item (fs.newItem it).1 = some it := by
  rw [FS.newItem, FS.item]
  exact getD_snoc_self _ _ _

theorem item_newItem_lt (fs : FS) (it : Item) {j : Nat} (h : j < fs.items.length) :
    (fs.newItem it).2.item j = fs.item j := by
  rw [FS.newItem, FS.item, FS.item]
  exact getD_snoc_lt _ _ _ _ h

theorem item_deleteItem (fs : FS) (id j : Nat) :
    (fs.deleteItem id).item j = if j = id then none else fs.item j := by
  show (fs.items.set id none).getD j none = if j = id then none else fs.items.getD j none
  by_cases h : j = id
  · subst h
    rw [if_pos rfl]
    by_cases hlt : j < fs.items.length
    · exact getD_set_self _ _ _ _ hlt
    · exact List.getD_eq_default _ _ (by simp only [List.length_set]; omega)
  · rw [if_neg h]
    exact getD_set_ne _ _ _ _ _ (fun hh => h hh.symm)

/-! ## `growDisk` and bitmap-fold lemmas -/

theorem getD_snoc_nil (d : List (List Char)) (j : Nat) :
    (d ++ [([] : List Char)]).getD j [] = d.getD j [] := by
  rcases Nat.lt_trichotomy j d.length with h | h | h
  · exact getD_snoc_lt _ _ _ _ h
  · subst h
    rw [getD_snoc_self, List.getD_eq_default _ _ (le_refl _)]
  · rw [getD_snoc_gt _ _ _ _ h, List.getD_eq_default _ _ (by omega)]

theorem growDiskAux_getD : ∀ fuel s (d : List (List Char)) j,
    (growDiskAux fuel s d).getD j [] = d.getD j [] := by
  intro fuel
  induction fuel with
  | zero => intro s d j; rfl
  | succ fuel ih =>
    intro s d j
    rw [growDiskAux]
    by_cases h : s ≥ d.length
    · rw [if_pos h, ih, getD_snoc_nil]
    · rw [if_neg h]

theorem growDisk_getD (s : Nat) (d : List (List Char)) (j : Nat) :
    (growDisk s d).getD j [] = d.getD j [] :=
  growDiskAux_getD _ _ _ _

theorem growDiskAux_length_gt : ∀ fuel s (d : List (List Char)),
    s < d.length + fuel → s < (growDiskAux fuel s d).length := by
  intro fuel
  induction fuel with
  | zero => intro s d h; simpa using h
  | succ fuel ih =>
    intro s d h
    rw [growDiskAux]
    by_cases hge : s ≥ d.length
    · rw [if_pos hge]
      exact ih s (d ++ [[]]) (by simp; omega)
    · rw [if_neg hge]
      omega

theorem growDisk_length_gt (s : Nat) (d : List (List Char)) :
    s < (growDisk s d).length :=
  growDiskAux_length_gt _ _ _ (by omega)

theorem getD_set_true_mono (m : List Bool) (x s : Nat)
    (h : m.getD s false = true) : (m.set x true).getD s false = true := by
  by_cases hxs : x = s
  · subst hxs
    by_cases hlt : x < m.length
    · rw [getD_set_self _ _ _ _ hlt]
    · rw [List.getD_eq_default _ _ (by omega)] at h
      exact absurd h (by simp)
  · rw [getD_set_ne _ _ _ _ _ hxs]
    exact h

theorem getD_foldl_set_true_mono : ∀ (secs : List Nat) (m : List Bool) s,
    m.getD s false = true →
    (secs.foldl (fun m s => m.set s true) m).getD s false = true := by
  intro secs
  induction secs with
  | nil => intro m s h; exact h
  | cons x rest ih =>
    intro m s h
    exact ih _ _ (getD_set_true_mono m x s h)

theorem getD_foldl_set_true_mem : ∀ (secs : List Nat) (m : List Bool) s,
    s ∈ secs → s < m.length →
    (secs.foldl (fun m s => m.set s true) m).getD s false = true := by
  intro secs
  induction secs with
  | nil => intro m s h; simp at h
  | cons x rest ih =>
    intro m s h hlt
    rcases List.mem_cons.mp h with rfl | hmem
    · exact getD_foldl_set_true_mono rest _ s (getD_set_self _ _ _ _ hlt)
    · exact ih _ _ hmem (by simpa using hlt)

theorem getD_foldl_set_true_notMem : ∀ (secs : List Nat) (m : List Bool) j,
    j ∉ secs →
    (secs.foldl (fun m s => m.set s true) m).getD j false = m.getD j false := by
  intro secs
  induction secs with
  | nil => intro m j h; rfl
  | cons x rest ih =>
    intro m j h
    rw [List.foldl_cons, ih _ _ (fun hm => h (List.mem_cons_of_mem _ hm))]
    exact getD_set_ne _ _ _ _ _ (fun hh => h (by rw [hh]; exact List.mem_cons_self _ _))

theorem length_foldl_set_true : ∀ (secs : List Nat) (m : List Bool),
    (secs.foldl (fun m s => m.set s true) m).length = m.length := by
  intro secs
  induction secs with
  | nil => intro m; rfl
  | cons x rest ih => intro m; rw [List.foldl_cons, ih]; simp

/-! ## The `writeChunks` master specification -/

theorem writeChunks_spec : ∀ (cs : List (List Char)) (fs : FS) (fid : Nat) (it : Item),
    fs.item fid = some it →
    ∃ secs : List Nat,
      (writeChunks fid cs fs).2.item fid = some { it with sectors := it.sectors ++ secs } ∧
      (∀ j, j ≠ fid → (writeChunks fid cs fs).2.item j = fs.item j) ∧
      secs.Nodup ∧
      (∀ s ∈ secs, s < fs.sectorMap.length ∧ fs.sectorMap.getD s false = false) ∧
      (writeChunks fid cs fs).2.sectorMap =
        secs.foldl (fun m s => m.set s true) fs.sectorMap ∧
      (∀ j, j ∉ secs → (writeChunks fid cs fs).2.disk.getD j [] = fs.disk.getD j []) ∧
      (∀ p ∈ secs.zip cs, (writeChunks fid cs fs).2.disk.getD p.1 [] = p.2) ∧
      ((writeChunks fid cs fs).1 = .ok () → secs.length = cs.length) ∧
      (∀ e, (writeChunks fid cs fs).1 = .error e →
        e = .diskFull ∧ secs.length < cs.length ∧
        firstFree (writeChunks fid cs fs).2.sectorMap = none) ∧
      (writeChunks fid cs fs).2.items.length = fs.items.length ∧
      (writeChunks fid cs fs).2.root = fs.root ∧
      (writeChunks fid cs fs).2.currentDir = fs.currentDir ∧
      (writeChunks fid cs fs).2.totalSectors = fs.totalSectors := by
  intro cs
  induction cs with
  | nil =>
    intro fs fid it hit
    refine ⟨[], ?_, ?_, ?_, ?_, ?_, ?_, ?_, ?_, ?_, ?_, ?_, ?_, ?_⟩ <;>
      simp [writeChunks, hit]
  | cons c rest ih =>
    intro fs fid it hit
    match hall : firstFree fs.sectorMap with
    | none =>
      have hwc : writeChunks fid (c :: rest) fs = (.error .diskFull, fs) := by
        rw [writeChunks]
        simp [allocateSector, hall]
      refine ⟨[], ?_, ?_, ?_, ?_, ?_, ?_, ?_, ?_, ?_, ?_, ?_, ?_, ?_⟩ <;>
        simp [hwc, hit, hall]
    | some s =>
      obtain ⟨hs_lt, hs_free, _⟩ := firstFree_some hall
      set fsA : FS := { fs with sectorMap := fs.sectorMap.set s true } with hfsA
      set fsB : FS := fsA.modifyItem fid
        (fun i => { i with sectors := i.sectors ++ [s] }) with hfsB
      set fsC : FS := { fsB with disk := growDisk s fsB.disk } with hfsC
      set fsD : FS := { fsC with disk := fsC.disk.set s c } with hfsD
      have hwc : writeChunks fid (c :: rest) fs = writeChunks fid rest fsD := by
        rw [writeChunks]
        simp [allocateSector, hall, hfsA, hfsB, hfsC, hfsD]
      have hitA : fsA.item fid = some it := hit
      have hitB : fsB.item fid = some { it with sectors := it.sectors ++ [s] } :=
        item_modifyItem_self _ hitA
      have hitD : fsD.item fid = some { it with sectors := it.sectors ++ [s] } := hitB
      have hsmD : fsD.sectorMap = fs.sectorMap.set s true := by
        simp [hfsD, hfsC, hfsB, hfsA]
      have hdiskB : fsB.disk = fs.disk := by simp [hfsB, hfsA]
      have hlenD : fsD.items.length = fs.items.length := by
        simp [hfsD, hfsC, hfsB, hfsA]
      have hdisk_s : fsD.disk.getD s [] = c := by
        rw [hfsD]
        exact getD_set_self _ _ _ _ (by rw [hfsC]; exact growDisk_length_gt _ _)
      have hdisk_ne : ∀ j, j ≠ s → fsD.disk.getD j [] = fs.disk.getD j [] := by
        intro j hj
        rw [hfsD]
        show (fsC.disk.set s c).getD j [] = fs.disk.getD j []
        rw [getD_set_ne _ _ _ _ _ (fun hh => hj hh.symm)]
        rw [hfsC]
        show (growDisk s fsB.disk).getD j [] = fs.disk.getD j []
        rw [growDisk_getD, hdiskB]
      obtain ⟨secs', ih1, ih2, ih3, ih4, ih5, ih6, ih7, ih8, ih9, ih10, ih11, ih12, ih13⟩ :=
        ih fsD fid { it with sectors := it.sectors ++ [s] } hitD
      have hs_notin : s ∉ secs' := by
        intro hmem
        have := (ih4 s hmem).2
        rw [hsmD, getD_set_self _ _ _ _ hs_lt] at this
        exact absurd this (by simp)
      refine ⟨s :: secs', ?_, ?_, ?_, ?_, ?_, ?_, ?_, ?_, ?_, ?_, ?_, ?_, ?_⟩
      · rw [hwc]
        rw [ih1]
        simp [List.append_assoc]
      · intro j hj
        rw [hwc, ih2 j hj]
        show fsB.item j = fs.item j
        exact item_modifyItem_ne fsA fid _ j hj
      · exact List.nodup_cons.mpr ⟨hs_notin, ih3⟩
      · intro x hx
        rcases List.mem_cons.mp hx with rfl | hmem
        · exact ⟨hs_lt, hs_free⟩
        · obtain ⟨hx1, hx2⟩ := ih4 x hmem
          rw [hsmD] at hx1 hx2
          have hxs : x ≠ s := by
            intro hh
            subst hh
            rw [getD_set_self _ _ _ _ hs_lt] at hx2
            exact absurd hx2 (by simp)
          rw [getD_set_ne _ _ _ _ _ (fun hh => hxs hh.symm)] at hx2
          exact ⟨by simpa using hx1, hx2⟩
      · rw [hwc, ih5, hsmD]
        rfl
      · intro j hj
        rw [hwc, ih6 j (fun hm => hj (List.mem_cons_of_mem _ hm))]
        exact hdisk_ne j (fun hh => hj (by rw [hh]; exact List.mem_cons_self _ _))
      · intro p hp
        rw [List.zip_cons_cons] at hp
        rcases List.mem_cons.mp hp with rfl | hmem
        · rw [hwc, ih6 s hs_notin]
          exact hdisk_s
        · rw [hwc]
          exact ih7 p hmem
      · intro hok
        rw [hwc] at hok
        simp [ih8 hok]
      · intro e herr
        rw [hwc] at herr
        obtain ⟨he1, he2, he3⟩ := ih9 e herr
        exact ⟨he1, by simpa using Nat.succ_lt_succ he2, by rw [hwc]; exact he3⟩
      · rw [hwc, ih10, hlenD]
      · rw [hwc, ih11]
        simp [hfsD, hfsC, hfsB, hfsA]
      · rw [hwc, ih12]
        simp [hfsD, hfsC, hfsB, hfsA]
      · rw [hwc, ih13]
        simp [hfsD, hfsC, hfsB, hfsA]

/-! ## `freeList` and `saveToDisk` specifications -/

theorem getD_set_false_mono (m : List Bool) (x s : Nat)
    (h : m.getD s false = false) : (m.set x false).getD s false = false := by
  by_cases hxs : x = s
  · subst hxs
    by_cases hlt : x < m.length
    · rw [getD_set_self _ _ _ _ hlt]
    · exact List.getD_eq_default _ _ (by simp only [List.length_set]; omega)
  · rw [getD_set_ne _ _ _ _ _ hxs]
    exact h

theorem getD_foldl_set_false_mono : ∀ (secs : List Nat) (m : List Bool) s,
    m.getD s false = false →
    (secs.foldl (fun m s => m.set s false) m).getD s false = false := by
  intro secs
  induction secs with
  | nil => intro m s h; exact h
  | cons x rest ih =>
    intro m s h
    exact ih _ _ (getD_set_false_mono m x s h)

theorem getD_foldl_set_false_mem : ∀ (secs : List Nat) (m : List Bool) s,
    s ∈ secs →
    (secs.foldl (fun m s => m.set s false) m).getD s false = false := by
  intro secs
  induction secs with
  | nil => intro m s h; simp at h
  | cons x rest ih =>
    intro m s h
    rcases List.mem_cons.mp h with rfl | hmem
    · refine getD_foldl_set_false_mono rest _ s ?_
      by_cases hlt : s < m.length
      · exact getD_set_self _ _ _ _ hlt
      · exact List.getD_eq_default _ _ (by simp only [List.length_set]; omega)
    · exact ih _ _ hmem

theorem getD_foldl_set_false_notMem : ∀ (secs : List Nat) (m : List Bool) j,
    j ∉ secs →
    (secs.foldl (fun m s => m.set s false) m).getD j false = m.getD j false := by
  intro secs
  induction secs with
  | nil => intro m j h; rfl
  | cons x rest ih =>
    intro m j h
    rw [List.foldl_cons, ih _ _ (fun hm => h (List.mem_cons_of_mem _ hm))]
    exact getD_set_ne _ _ _ _ _ (fun hh => h (by rw [hh]; exact List.mem_cons_self _ _))

theorem length_foldl_set_false : ∀ (secs : List Nat) (m : List Bool),
    (secs.foldl (fun m s => m.set s false) m).length = m.length := by
  intro secs
  induction secs with
  | nil => intro m; rfl
  | cons x rest ih => intro m; rw [List.foldl_cons, ih]; simp

theorem freeList_spec : ∀ (secs : List Nat) (fs : FS),
    (∀ s ∈ secs, s < fs.sectorMap.length) →
    freeList secs fs = (.ok (),
      { fs with sectorMap := secs.foldl (fun m s => m.set s false) fs.sectorMap }) := by
  intro secs
  induction secs with
  | nil =>
    intro fs _
    rfl
  | cons s rest ih =>
    intro fs hb
    have hs : s < fs.sectorMap.length := hb s (List.mem_cons_self _ _)
    rw [freeList]
    have hfree : freeSector s fs =
        (.ok (), { fs with sectorMap := fs.sectorMap.set s false }) := by
      rw [freeSector, if_neg (by omega)]
    rw [hfree]
    show freeList rest { fs with sectorMap := fs.sectorMap.set s false } =
      (.ok (), { fs with
        sectorMap := (s :: rest).foldl (fun m s => m.set s false) fs.sectorMap })
    rw [ih _ (by intro x hx; simpa using hb x (List.mem_cons_of_mem _ hx))]
    rfl

/-- Master specification of `saveToDisk` on a live file node whose old
sectors are all in range: the old sectors are freed first (`m1` below is
the bitmap after those frees), then the chunks of the content are
written to freshly allocated sectors `secs`; on success
`len(secs) = numChunks content`, on failure (necessarily DiskFull) fewer
sectors were claimed and no free sector remains. -/
theorem saveToDisk_spec (fs : FS) (fid : Nat) (it : Item)
    (hit : fs.item fid = some it)
    (hfile : it.isFolder = false)
    (hold : ∀ s ∈ it.sectors, s < fs.sectorMap.length) :
    ∃ secs : List Nat,
      (saveToDisk fid fs).2.item fid = some { it with sectors := secs } ∧
      (∀ j, j ≠ fid → (saveToDisk fid fs).2.item j = fs.item j) ∧
      secs.Nodup ∧
      (∀ s ∈ secs, s < fs.sectorMap.length ∧
        (it.sectors.foldl (fun m s => m.set s false) fs.sectorMap).getD s false
          = false) ∧
      (saveToDisk fid fs).2.sectorMap =
        secs.foldl (fun m s => m.set s true)
          (it.sectors.foldl (fun m s => m.set s false) fs.sectorMap) ∧
      (∀ j, j ∉ secs → (saveToDisk fid fs).2.disk.getD j [] = fs.disk.getD j []) ∧
      (∀ p ∈ secs.zip (chunks it.content), (saveToDisk fid fs).2.disk.getD p.1 [] = p.2) ∧
      ((saveToDisk fid fs).1 = .ok () → secs.length = numChunks it.content) ∧
      (∀ e, (saveToDisk fid fs).1 = .error e →
        e = .diskFull ∧ secs.length < numChunks it.content ∧
        firstFree (saveToDisk fid fs).2.sectorMap = none) ∧
      (saveToDisk fid fs).2.items.length = fs.items.length ∧
      (saveToDisk fid fs).2.root = fs.root ∧
      (saveToDisk fid fs).2.currentDir = fs.currentDir ∧
      (saveToDisk fid fs).2.totalSectors = fs.totalSectors ∧
      (saveToDisk fid fs).2.sectorMap.length = fs.sectorMap.length := by
  set m1 : List Bool := it.sectors.foldl (fun m s => m.set s false) fs.sectorMap with hm1
  set fs1 : FS := { fs with sectorMap := m1 } with hfs1
  have hrun : saveToDisk fid fs =
      writeChunks fid (chunks it.content)
        (fs1.modifyItem fid (fun i => { i with sectors := [] })) := by
    rw [saveToDisk]
    simp only [hit]
    rw [if_neg (by simp [hfile])]
    rw [freeList_spec it.sectors fs hold]
  set fs2 : FS := fs1.modifyItem fid (fun i => { i with sectors := [] }) with hfs2
  have hit2 : fs2.item fid = some { it with sectors := [] } :=
    item_modifyItem_self _ (show fs1.item fid = some it from hit)
  have hsm2 : fs2.sectorMap = m1 := by simp [hfs2, hfs1]
  have hd2 : fs2.disk = fs.disk := by simp [hfs2, hfs1]
  have hl2 : fs2.items.length = fs.items.length := by simp [hfs2, hfs1]
  have hml : m1.length = fs.sectorMap.length := length_foldl_set_false _ _
  obtain ⟨secs, w1, w2, w3, w4, w5, w6, w7, w8, w9, w10, w11, w12, w13⟩ :=
    writeChunks_spec (chunks it.content) fs2 fid { it with sectors := [] } hit2
  refine ⟨secs, ?_, ?_, w3, ?_, ?_, ?_, ?_, ?_, ?_, ?_, ?_, ?_, ?_, ?_⟩
  · rw [hrun, w1]
    simp
  · intro j hj
    rw [hrun, w2 j hj]
    have hstep := item_modifyItem_ne fs1 fid (fun i => { i with sectors := [] }) j hj
    rw [← hfs2] at hstep
    rw [hstep]
    rfl
  · intro s hs
    obtain ⟨h1, h2⟩ := w4 s hs
    rw [hsm2] at h1 h2
    exact ⟨by omega, h2⟩
  · rw [hrun, w5, hsm2]
  · intro j hj
    rw [hrun, w6 j hj, hd2]
  · intro p hp
    rw [hrun]
    exact w7 p hp
  · intro hok
    rw [hrun] at hok
    rw [w8 hok]
    rfl
  · intro e herr
    rw [hrun] at herr
    obtain ⟨h1, h2, h3⟩ := w9 e herr
    exact ⟨h1, h2, by rw [hrun]; exact h3⟩
  · rw [hrun, w10, hl2]
  · rw [hrun, w11]
    simp [hfs2, hfs1]
  · rw [hrun, w12]
    simp [hfs2, hfs1]
  · rw [hrun, w13]
    simp [hfs2, hfs1]
  · rw [hrun, w5]
    rw [length_foldl_set_true, hsm2, hml]

/-! ## Claim C9: content rewrite is not transactional -/

/-- C9: when a content rewrite (`saveToDisk`, the ContentWriter) hits
DiskFull partway, at return: the error is DiskFull with no free sector
left; the node keeps its full `content` but its `sectors` list holds
only the sectors claimed for the chunks written before the failure
(fewer than the content needs — node and disk state inconsistent with
the content field); those claimed sectors remain marked allocated; the
disk slots hold exactly the written chunks; the node's previous sectors
were already freed (except any the partial write re-claimed); and no
other node is touched. -/
theorem claim_C9_nontransactional (fs : FS) (fid : Nat) (it : Item)
    (hit : fs.item fid = some it)
    (hfile : it.isFolder = false)
    (hold : ∀ s ∈ it.sectors, s < fs.sectorMap.length)
    (e : Err) (herr : (saveToDisk fid fs).1 = .error e) :
    e = .diskFull ∧
    firstFree (saveToDisk fid fs).2.sectorMap = none ∧
    ∃ secs : List Nat,
      (saveToDisk fid fs).2.item fid = some { it with sectors := secs } ∧
      secs.length < numChunks it.content ∧
      (∀ s ∈ secs, (saveToDisk fid fs).2.sectorMap.getD s false = true) ∧
      (∀ p ∈ secs.zip (chunks it.content),
        (saveToDisk fid fs).2.disk.getD p.1 [] = p.2) ∧
      (∀ s ∈ it.sectors, s ∉ secs →
        (saveToDisk fid fs).2.sectorMap.getD s false = false) ∧
      (∀ j, j ≠ fid → (saveToDisk fid fs).2.item j = fs.item j) := by
  obtain ⟨secs, s1, s2, s3, s4, s5, s6, s7, s8, s9, s10, s11, s12, s13, s14⟩ :=
    saveToDisk_spec fs fid it hit hfile hold
  obtain ⟨he1, he2, he3⟩ := s9 e herr
  refine ⟨he1, he3, secs, s1, he2, ?_, s7, ?_, s2⟩
  · intro s hs
    rw [s5]
    exact getD_foldl_set_true_mem _ _ _ hs
      (by rw [length_foldl_set_false]; exact (s4 s hs).1)
  · intro s hsold hsnot
    rw [s5, getD_foldl_set_true_notMem _ _ _ hsnot]
    exact getD_foldl_set_false_mem _ _ _ hsold

/-- Witness for C9: rewriting the (already partially written) 65-byte
file on the full 1-sector disk fails with DiskFull; instantiating the
theorem at that state. -/
theorem claim_C9_witness :
    (saveToDisk 1 (FS.put (FS.init 1) "a" content65 "/").1).1 = .error Err.diskFull ∧
    Err.diskFull = Err.diskFull := by
  have h := claim_C9_nontransactional (FS.put (FS.init 1) "a" content65 "/").1 1
    { isFolder := false, name := "a", content := content65, sectors := [0],
      children := [], parent := some 0 }
    (by decide) (by decide) (by decide) Err.diskFull (by decide)
  exact ⟨by decide, h.1⟩

/-! ## Claim C4: defragmentation -/

/-- The compact bitmap shape: `n` allocated sectors, then free space. -/
def seqMap (n L : Nat) : List Bool :=
  List.replicate n true ++ List.replicate (L - n) false

theorem seqMap_length {n L : Nat} (h : n ≤ L) : (seqMap n L).length = L := by
  simp [seqMap]
  omega

theorem seqMap_set : ∀ n L, n < L → (seqMap n L).set n true = seqMap (n + 1) L := by
  intro n
  induction n with
  | zero =>
    intro L h
    match L with
    | L' + 1 =>
      simp [seqMap, List.replicate_succ]
  | succ n ih =>
    intro L h
    match L with
    | L' + 1 =>
      have : seqMap (n + 1) (L' + 1) = true :: seqMap n L' := by
        simp [seqMap, List.replicate_succ]
      rw [this]
      have h2 : seqMap (n + 1 + 1) (L' + 1) = true :: seqMap (n + 1) L' := by
        simp [seqMap, List.replicate_succ]
      rw [h2, List.set_cons_succ, ih L' (by omega)]

/-- Concatenating the chunks gives back the content. -/
theorem chunks_join_aux : ∀ n (l : List Char), l.length ≤ n → (chunks l).join = l := by
  intro n
  induction n with
  | zero =>
    intro l h
    have : l = [] := List.length_eq_zero.mp (by omega)
    subst this
    rfl
  | succ n ih =>
    intro l h
    by_cases hl : l = []
    · subst hl
      rfl
    · rw [chunks_eq, if_neg hl]
      show l.take SECTOR_SIZE ++ (chunks (l.drop SECTOR_SIZE)).join = l
      rw [ih (l.drop SECTOR_SIZE) (by simp [SECTOR_SIZE]; omega)]
      exact List.take_append_drop _ _

theorem chunks_join (l : List Char) : (chunks l).join = l :=
  chunks_join_aux l.length l (le_refl _)

/-- Recover a list from pointwise values along a zip. -/
theorem map_eq_of_zip : ∀ (secs : List Nat) (cs : List (List Char)) (g : Nat → List Char),
    secs.length = cs.length → (∀ p ∈ secs.zip cs, g p.1 = p.2) →
    secs.map g = cs := by
  intro secs
  induction secs with
  | nil =>
    intro cs g hlen _
    match cs with
    | [] => rfl
  | cons s rest ih =>
    intro cs g hlen hzip
    match cs with
    | c :: cs' =>
      rw [List.map_cons]
      rw [hzip (s, c) (by rw [List.zip_cons_cons]; exact List.mem_cons_self _ _)]
      rw [ih cs' g (by simpa using hlen)
        (fun p hp => hzip p (by rw [List.zip_cons_cons]; exact List.mem_cons_of_mem _ hp))]

/-- Reading a file back from the disk: concatenate its sectors' slots. -/
def readFile (fs : FS) (fid : Nat) : List Char :=
  match fs.item fid with
  | some it => (it.sectors.map (fun s => fs.disk.getD s [])).join
  | none => []

/-- Per-file chunk count and the running total. -/
def chunkCount (fs : FS) (f : Nat) : Nat :=
  match fs.item f with
  | some it => numChunks it.content
  | none => 0

def totalChunks (fs : FS) (files : List Nat) : Nat :=
  (files.map (chunkCount fs)).sum

/-- The (file, offset, count) layout `defrag` assigns, in traversal
order with a running offset. -/
def defragAssign (fs : FS) : List Nat → Nat → List (Nat × Nat × Nat)
  | [], _ => []
  | f :: rest, n => (f, n, chunkCount fs f) :: defragAssign fs rest (n + chunkCount fs f)

theorem defragAssign_congr : ∀ (files : List Nat) (fs2 fs : FS) (n : Nat),
    (∀ f ∈ files, fs2.item f = fs.item f) →
    defragAssign fs2 files n = defragAssign fs files n := by
  intro files
  induction files with
  | nil => intro fs2 fs n _; rfl
  | cons f rest ih =>
    intro fs2 fs n h
    rw [defragAssign, defragAssign]
    have hcc : chunkCount fs2 f = chunkCount fs f := by
      rw [chunkCount, chunkCount, h f (List.mem_cons_self _ _)]
    rw [hcc, ih fs2 fs _ (fun x hx => h x (List.mem_cons_of_mem _ hx))]

theorem totalChunks_congr {files : List Nat} {fs2 fs : FS}
    (h : ∀ f ∈ files, fs2.item f = fs.item f) :
    totalChunks fs2 files = totalChunks fs files := by
  rw [totalChunks, totalChunks]
  congr 1
  exact List.map_congr_left (fun f hf => by
    rw [chunkCount, chunkCount, h f hf])

theorem defragWrite_ok : ∀ (cs : List (List Char)) (fid : Nat) (n : Nat) (fs : FS)
    (it : Item) (n' : Nat) (fs' : FS),
    defragWrite fid cs n fs = (.ok n', fs') →
    fs.item fid = some it →
    fs.sectorMap = seqMap n fs.totalSectors →
    fs.sectorMap.length = fs.totalSectors →
    n' = n + cs.length ∧ n' ≤ fs.totalSectors ∧
    fs'.item fid = some { it with sectors := it.sectors ++ List.range' n cs.length } ∧
    (∀ j, j ≠ fid → fs'.item j = fs.item j) ∧
    fs'.sectorMap = seqMap n' fs.totalSectors ∧
    fs'.sectorMap.length = fs.totalSectors ∧
    fs'.totalSectors = fs.totalSectors ∧
    fs'.items.length = fs.items.length ∧
    fs'.root = fs.root ∧ fs'.currentDir = fs.currentDir ∧
    (∀ j, j < n ∨ fs.totalSectors ≤ j → fs'.disk.getD j [] = fs.disk.getD j []) ∧
    (∀ p ∈ (List.range' n cs.length).zip cs, fs'.disk.getD p.1 [] = p.2) := by
  intro cs
  induction cs with
  | nil =>
    intro fid n fs it n' fs' hrun hit hsm hlen
    rw [defragWrite] at hrun
    injection hrun with h1 h2
    injection h1 with h1
    subst h1
    subst h2
    have hton : n ≤ fs.totalSectors := by
      rw [hsm] at hlen
      simp [seqMap] at hlen
      omega
    refine ⟨by simp, by simpa using hton, by simpa using hit, fun j _ => rfl,
      by simpa using hsm, hlen, rfl, rfl, rfl, rfl, fun j _ => rfl, by simp⟩
  | cons c rest ih =>
    intro fid n fs it n' fs' hrun hit hsm hlen
    by_cases hge : n ≥ fs.totalSectors
    · rw [defragWrite, if_pos hge] at hrun
      exact absurd (congrArg Prod.fst hrun) (by simp)
    · set fsA : FS := { fs with sectorMap := fs.sectorMap.set n true } with hA
      set fsB : FS := fsA.modifyItem fid
        (fun i => { i with sectors := i.sectors ++ [n] }) with hB
      set fsC : FS := { fsB with disk := growDisk n fsB.disk } with hC
      set fsD : FS := { fsC with disk := fsC.disk.set n c } with hD
      have hstep : defragWrite fid (c :: rest) n fs = defragWrite fid rest (n + 1) fsD := by
        rw [defragWrite, if_neg hge]
      rw [hstep] at hrun
      have hitD : fsD.item fid = some { it with sectors := it.sectors ++ [n] } :=
        item_modifyItem_self _ (show fsA.item fid = some it from hit)
      have htotD : fsD.totalSectors = fs.totalSectors := by
        simp [hD, hC, hB, hA]
      have hsmD : fsD.sectorMap = seqMap (n + 1) fsD.totalSectors := by
        have : fsD.sectorMap = fs.sectorMap.set n true := by simp [hD, hC, hB, hA]
        rw [this, htotD, hsm, seqMap_set n fs.totalSectors (by omega)]
      have hlenD : fsD.sectorMap.length = fsD.totalSectors := by
        have : fsD.sectorMap = fs.sectorMap.set n true := by simp [hD, hC, hB, hA]
        rw [this, htotD]
        simp [hlen]
      obtain ⟨ih1, ih2, ih3, ih4, ih5, ih6, ih7, ih8, ih9, ih10, ih11, ih12⟩ :=
        ih fid (n + 1) fsD { it with sectors := it.sectors ++ [n] } n' fs' hrun hitD hsmD hlenD
      have hdiskD_n : fsD.disk.getD n [] = c := by
        rw [hD]
        exact getD_set_self _ _ _ _ (by rw [hC]; exact growDisk_length_gt _ _)
      have hdiskD_ne : ∀ j, j ≠ n → fsD.disk.getD j [] = fs.disk.getD j [] := by
        intro j hj
        rw [hD]
        show (fsC.disk.set n c).getD j [] = fs.disk.getD j []
        rw [getD_set_ne _ _ _ _ _ (fun hh => hj hh.symm), hC]
        show (growDisk n fsB.disk).getD j [] = fs.disk.getD j []
        rw [growDisk_getD]
        have : fsB.disk = fs.disk := by simp [hB, hA]
        rw [this]
      rw [htotD] at ih2 ih5 ih6 ih7 ih11
      refine ⟨by rw [ih1]; simp; omega, ih2, ?_, ?_, ih5, ih6, ih7, ?_, ?_, ?_, ?_, ?_⟩
      · rw [ih3]
        have : List.range' n (c :: rest).length = n :: List.range' (n + 1) rest.length := by
          simp [List.range'_succ]
        rw [this]
        simp [List.append_assoc]
      · intro j hj
        rw [ih4 j hj]
        have hstep2 := item_modifyItem_ne fsA fid
          (fun i => { i with sectors := i.sectors ++ [n] }) j hj
        rw [← hB] at hstep2
        show fsB.item j = fs.item j
        rw [hstep2]
        rfl
      · rw [ih8]
        simp [hD, hC, hB, hA]
      · rw [ih9]
        simp [hD, hC, hB, hA]
      · rw [ih10]
        simp [hD, hC, hB, hA]
      · intro j hj
        have hj2 : j < n + 1 ∨ fs.totalSectors ≤ j := by omega
        rw [ih11 j hj2]
        exact hdiskD_ne j (by omega)
      · intro p hp
        have : List.range' n (c :: rest).length = n :: List.range' (n + 1) rest.length := by
          simp [List.range'_succ]
        rw [this, List.zip_cons_cons] at hp
        rcases List.mem_cons.mp hp with rfl | hmem
        · rw [ih11 n (Or.inl (by omega))]
          exact hdiskD_n
        · exact ih12 p hmem

theorem defragAssign_mem : ∀ (files : List Nat) (fs : FS) (n : Nat) (t : Nat × Nat × Nat),
    t ∈ defragAssign fs files n → t.1 ∈ files := by
  intro files
  induction files with
  | nil => intro fs n t h; simp [defragAssign] at h
  | cons f rest ih =>
    intro fs n t h
    rw [defragAssign] at h
    rcases List.mem_cons.mp h with rfl | hmem
    · exact List.mem_cons_self _ _
    · exact List.mem_cons_of_mem _ (ih fs _ t hmem)

theorem defragLoop_ok : ∀ (files : List Nat) (n : Nat) (fs : FS) (n' : Nat) (fs' : FS),
    defragLoop files n fs = (.ok n', fs') →
    files.Nodup →
    (∀ f ∈ files, ∃ it, fs.item f = some it ∧ it.isFolder = false) →
    fs.sectorMap = seqMap n fs.totalSectors →
    fs.sectorMap.length = fs.totalSectors →
    n' = n + totalChunks fs files ∧ n' ≤ fs.totalSectors ∧
    fs'.sectorMap = seqMap n' fs.totalSectors ∧
    fs'.sectorMap.length = fs.totalSectors ∧
    fs'.totalSectors = fs.totalSectors ∧
    fs'.items.length = fs.items.length ∧
    fs'.root = fs.root ∧ fs'.currentDir = fs.currentDir ∧
    (∀ j, j ∉ files → fs'.item j = fs.item j) ∧
    (∀ j, j < n ∨ fs.totalSectors ≤ j → fs'.disk.getD j [] = fs.disk.getD j []) ∧
    (∀ t ∈ defragAssign fs files n, ∃ it, fs.item t.1 = some it ∧
      t.2.2 = numChunks it.content ∧
      fs'.item t.1 = some { it with sectors := List.range' t.2.1 t.2.2 } ∧
      (∀ p ∈ (List.range' t.2.1 t.2.2).zip (chunks it.content),
        fs'.disk.getD p.1 [] = p.2)) := by
  intro files
  induction files with
  | nil =>
    intro n fs n' fs' hrun hnd hlive hsm hlen
    rw [defragLoop] at hrun
    injection hrun with h1 h2
    injection h1 with h1
    subst h1
    subst h2
    have hton : n ≤ fs.totalSectors := by
      rw [hsm] at hlen
      simp [seqMap] at hlen
      omega
    refine ⟨by simp [totalChunks], by simpa using hton, by simpa using hsm, hlen,
      rfl, rfl, rfl, rfl, fun j _ => rfl, fun j _ => rfl, ?_⟩
    intro t ht
    simp [defragAssign] at ht
  | cons f rest ih =>
    intro n fs n' fs' hrun hnd hlive hsm hlen
    obtain ⟨it, hitf, hfold⟩ := hlive f (List.mem_cons_self _ _)
    have hnd1 : f ∉ rest := (List.nodup_cons.mp hnd).1
    have hnd2 : rest.Nodup := (List.nodup_cons.mp hnd).2
    set fs1 : FS := fs.modifyItem f (fun i => { i with sectors := [] }) with hfs1
    have hstep : defragLoop (f :: rest) n fs =
        (match defragWrite f (chunks it.content) n fs1 with
         | (.error e, fs2) => (.error e, fs2)
         | (.ok n1, fs2) => defragLoop rest n1 fs2) := by
      rw [defragLoop]
      simp only [hitf]
      rw [if_neg (by simp [hfold])]
    rw [hstep] at hrun
    match hw : defragWrite f (chunks it.content) n fs1 with
    | (.error e, fs2) =>
      rw [hw] at hrun
      exact absurd (congrArg Prod.fst hrun) (by simp)
    | (.ok n1, fs2) =>
      rw [hw] at hrun
      have hit1 : fs1.item f = some { it with sectors := [] } :=
        item_modifyItem_self _ hitf
      have hsm1 : fs1.sectorMap = seqMap n fs1.totalSectors := by
        simp only [hfs1, modifyItem_sectorMap, modifyItem_totalSectors]
        exact hsm
      have hlen1 : fs1.sectorMap.length = fs1.totalSectors := by
        simp only [hfs1, modifyItem_sectorMap, modifyItem_totalSectors]
        exact hlen
      obtain ⟨dw1, dw2, dw3, dw4, dw5, dw6, dw7, dw8, dw9, dw10, dw11, dw12⟩ :=
        defragWrite_ok (chunks it.content) f n fs1 { it with sectors := [] } n1 fs2
          hw hit1 hsm1 hlen1
      have htot1 : fs1.totalSectors = fs.totalSectors := by simp [hfs1]
      have hcnt : (chunks it.content).length = chunkCount fs f := by
        rw [chunkCount, hitf]
        rfl
      have hrest_item : ∀ x ∈ rest, fs2.item x = fs.item x := by
        intro x hx
        have hxf : x ≠ f := fun hh => hnd1 (hh ▸ hx)
        rw [dw4 x hxf, hfs1]
        exact item_modifyItem_ne fs f _ x hxf
      have hlive2 : ∀ x ∈ rest, ∃ it2, fs2.item x = some it2 ∧ it2.isFolder = false := by
        intro x hx
        obtain ⟨it2, h1, h2⟩ := hlive x (List.mem_cons_of_mem _ hx)
        exact ⟨it2, by rw [hrest_item x hx]; exact h1, h2⟩
      have hsm2 : fs2.sectorMap = seqMap n1 fs2.totalSectors := by
        rw [dw7, htot1, dw5, htot1]
      have hlen2 : fs2.sectorMap.length = fs2.totalSectors := by
        rw [dw7, htot1, dw6, htot1]
      obtain ⟨il1, il2, il3, il4, il5, il6, il7, il8, il9, il10, il11⟩ :=
        ih n1 fs2 n' fs' hrun hnd2 hlive2 hsm2 hlen2
      have htot2 : fs2.totalSectors = fs.totalSectors := by rw [dw7, htot1]
      have htc : totalChunks fs2 rest = totalChunks fs rest := totalChunks_congr hrest_item
      have hn1 : n1 = n + chunkCount fs f := by rw [dw1, hcnt]
      have hnn1 : n ≤ n1 := by omega
      refine ⟨?_, ?_, ?_, ?_, ?_, ?_, ?_, ?_, ?_, ?_, ?_⟩
      · rw [il1, htc, hn1]
        simp only [totalChunks, List.map_cons, List.sum_cons]
        omega
      · rw [htot2] at il2
        exact il2
      · rw [il3, htot2]
      · rw [il4, htot2]
      · rw [il5, htot2]
      · rw [il6, dw8]
        simp [hfs1]
      · rw [il7, dw9]
        simp [hfs1]
      · rw [il8, dw10]
        simp [hfs1]
      · intro j hj
        have hjf : j ≠ f := fun hh => hj (by rw [hh]; exact List.mem_cons_self _ _)
        have hjr : j ∉ rest := fun hh => hj (List.mem_cons_of_mem _ hh)
        rw [il9 j hjr, dw4 j hjf, hfs1]
        exact item_modifyItem_ne fs f _ j hjf
      · intro j hj
        have hj1 : j < n1 ∨ fs2.totalSectors ≤ j := by
          rw [htot2]
          omega
        rw [il10 j hj1, dw11 j (by rw [htot1]; omega)]
        simp [hfs1]
      · intro t ht
        rw [defragAssign] at ht
        rcases List.mem_cons.mp ht with rfl | hmem
        · have hcnt2 : chunkCount fs f = numChunks it.content := by
            simp only [chunkCount, hitf]
          refine ⟨it, hitf, hcnt2, ?_, ?_⟩
          · rw [il9 f hnd1, dw3]
            simp only [List.nil_append, hcnt2]
            rfl
          · intro p hp
            simp only [hcnt2] at hp
            have hp1 : p.1 ∈ List.range' n (numChunks it.content) :=
              (List.of_mem_zip hp).1
            have hp1c : p.1 < n1 := by
              rw [List.mem_range'_1] at hp1
              rw [hn1, hcnt2]
              omega
            rw [il10 p.1 (Or.inl hp1c)]
            exact dw12 p hp
        · have hass : defragAssign fs rest (n + chunkCount fs f) =
              defragAssign fs2 rest n1 := by
            rw [hn1]
            exact (defragAssign_congr rest fs2 fs _ hrest_item).symm
          rw [hass] at hmem
          obtain ⟨it2, h1, h2, h3, h4⟩ := il11 t hmem
          refine ⟨it2, ?_, h2, h3, h4⟩
          rw [← hrest_item t.1 (by
            have := defragAssign_mem rest fs2 n1 t hmem
            exact this)]
          exact h1

theorem collectFiles_live : ∀ (fuel : Nat) (fs : FS) (cs : List Nat) (out : List Nat),
    collectFilesAux fs fuel cs = .ok out →
    ∀ f ∈ out, ∃ ci, fs.item f = some ci ∧ ci.isFolder = false := by
  intro fuel
  induction fuel with
  | zero =>
    intro fs cs out h
    match cs with
    | [] =>
      cases h
      simp
    | c :: rest => simp [collectFilesAux] at h
  | succ fuel ih =>
    intro fs cs out h
    match cs with
    | [] =>
      cases h
      simp
    | c :: rest =>
      rw [collectFilesAux] at h
      match hc : fs.item c with
      | none =>
        simp only [hc] at h
        exact ih fs rest out h
      | some ci =>
        simp only [hc] at h
        by_cases hf : ci.isFolder
        · rw [if_pos (by simp [hf])] at h
          match hsub : collectFilesAux fs fuel ci.children with
          | .error e => rw [hsub] at h; cases h
          | .ok sub =>
            rw [hsub] at h
            match hrest : collectFilesAux fs fuel rest with
            | .error e => rw [hrest] at h; cases h
            | .ok restF =>
              rw [hrest] at h
              cases h
              intro f hfm
              rcases List.mem_append.mp hfm with hm | hm
              · exact ih fs ci.children sub hsub f hm
              · exact ih fs rest restF hrest f hm
        · rw [if_neg (by simp [hf])] at h
          match hrest : collectFilesAux fs fuel rest with
          | .error e => rw [hrest] at h; cases h
          | .ok restF =>
            rw [hrest] at h
            cases h
            intro f hfm
            rcases List.mem_cons.mp hfm with rfl | hm
            · exact ⟨ci, hc, by simpa using hf⟩
            · exact ih fs rest restF hrest f hm

/-- C4: whenever `defrag()` succeeds, the allocated sector ids are
exactly `{0, ..., S-1}` (the bitmap is `S` trues then frees), where `S`
is the sum of the files' (post-defrag) sector counts; each collected
file — the collection is the fixed depth-first child-order traversal —
receives the consecutive range of ids at its running offset, of length
`ceil(len(content)/sectorSize)`; every file's content read back from the
disk afterwards equals its content before; and nodes outside the
traversal are untouched. -/
theorem claim_C4_defrag (fs fs' : FS) (files : List Nat)
    (hok : FS.defrag fs = (fs', none))
    (hfiles : defragFiles fs = .ok files)
    (hnodup : files.Nodup)
    (hlen : fs.sectorMap.length = fs.totalSectors) :
    totalChunks fs files ≤ fs.totalSectors ∧
    fs'.sectorMap = List.replicate (totalChunks fs files) true ++
      List.replicate (fs.totalSectors - totalChunks fs files) false ∧
    (∀ t ∈ defragAssign fs files 0, ∃ it, fs.item t.1 = some it ∧
      t.2.2 = numChunks it.content ∧
      fs'.item t.1 = some { it with sectors := List.range' t.2.1 t.2.2 } ∧
      readFile fs' t.1 = it.content) ∧
    (∀ j, j ∉ files → fs'.item j = fs.item j) := by
  have hlive : ∀ f ∈ files, ∃ ci, fs.item f = some ci ∧ ci.isFolder = false := by
    rw [defragFiles] at hfiles
    match hr : fs.item fs.root with
    | none => rw [hr] at hfiles; cases hfiles
    | some rit =>
      rw [hr] at hfiles
      exact collectFiles_live _ fs rit.children files hfiles
  set fs1 : FS := { fs with sectorMap := List.replicate fs.sectorMap.length false }
    with hfs1
  have hdef : FS.defrag fs =
      (match defragLoop files 0 fs1 with
       | (.ok _, fs2) => (fs2, none)
       | (.error e, fs2) => (fs2, some e)) := by
    rw [FS.defrag, hfiles]
  rw [hdef] at hok
  match hrun : defragLoop files 0 fs1 with
  | (.error e, fs2) =>
    rw [hrun] at hok
    exact absurd (congrArg Prod.snd hok) (by simp)
  | (.ok n2, fs2) =>
    rw [hrun] at hok
    have hfs' : fs2 = fs' := congrArg Prod.fst hok
    subst hfs'
    have hlive1 : ∀ f ∈ files, ∃ ci, fs1.item f = some ci ∧ ci.isFolder = false :=
      hlive
    have hsm1 : fs1.sectorMap = seqMap 0 fs1.totalSectors := by
      show List.replicate fs.sectorMap.length false = seqMap 0 fs.totalSectors
      rw [hlen]
      simp [seqMap]
    have hlen1 : fs1.sectorMap.length = fs1.totalSectors := by
      show (List.replicate fs.sectorMap.length false).length = fs.totalSectors
      simp [hlen]
    obtain ⟨il1, il2, il3, il4, il5, il6, il7, il8, il9, il10, il11⟩ :=
      defragLoop_ok files 0 fs1 n2 fs2 hrun hnodup hlive1 hsm1 hlen1
    have hitems1 : ∀ f ∈ files, fs1.item f = fs.item f := fun f _ => rfl
    have htc1 : totalChunks fs1 files = totalChunks fs files := totalChunks_congr hitems1
    have hn2 : n2 = totalChunks fs files := by rw [il1, htc1]; simp
    have htot1 : fs1.totalSectors = fs.totalSectors := rfl
    refine ⟨?_, ?_, ?_, ?_⟩
    · rw [← hn2, ← htot1]
      exact il2
    · rw [il3, hn2, htot1, seqMap]
    · intro t ht
      have ht1 : t ∈ defragAssign fs1 files 0 := by
        rw [defragAssign_congr files fs1 fs 0 hitems1]
        exact ht
      obtain ⟨it, h1, h2, h3, h4⟩ := il11 t ht1
      refine ⟨it, h1, h2, h3, ?_⟩
      rw [readFile, h3]
      show ((List.range' t.2.1 t.2.2).map (fun s => fs2.disk.getD s [])).join
        = it.content
      rw [map_eq_of_zip (List.range' t.2.1 t.2.2) (chunks it.content)
        (fun s => fs2.disk.getD s [])
        (by rw [List.length_range', h2]; rfl) h4]
      exact chunks_join _
    · intro j hj
      rw [il9 j hj]
      rfl

/-- The concrete state for the C4 witness: capacity 3, one 65-byte file. -/
def defragWitnessFS : FS := (FS.put (FS.init 3) "a" content65 "/").1

/-- Witness for C4: defragmenting the witness state succeeds; the bitmap
becomes two allocated sectors followed by one free one, matching
`S = totalChunks = 2`. -/
theorem claim_C4_witness :
    totalChunks defragWitnessFS [1] ≤ defragWitnessFS.totalSectors ∧
    (FS.defrag defragWitnessFS).1.sectorMap =
      List.replicate (totalChunks defragWitnessFS [1]) true ++
      List.replicate (defragWitnessFS.totalSectors - totalChunks defragWitnessFS [1])
        false := by
  have h := claim_C4_defrag defragWitnessFS (FS.defrag defragWitnessFS).1 [1]
    (by decide) (by decide) (by decide) (by decide)
  exact ⟨h.1, h.2.1⟩

/-! ## Claim C5: `rm` and the delete/free bookkeeping -/

theorem getD_foldl_set_notMem {α} (a d : α) : ∀ (xs : List Nat) (l : List α) (j : Nat),
    j ∉ xs → (xs.foldl (fun l i => l.set i a) l).getD j d = l.getD j d := by
  intro xs
  induction xs with
  | nil => intro l j h; rfl
  | cons x rest ih =>
    intro l j h
    rw [List.foldl_cons, ih _ _ (fun hm => h (List.mem_cons_of_mem _ hm))]
    exact getD_set_ne _ _ _ _ _ (fun hh => h (by rw [hh]; exact List.mem_cons_self _ _))

theorem getD_foldl_set_mem {α} (a : α) : ∀ (xs : List Nat) (l : List α) (j : Nat),
    j ∈ xs → (xs.foldl (fun l i => l.set i a) l).getD j a = a := by
  intro xs
  induction xs with
  | nil => intro l j h; simp at h
  | cons x rest ih =>
    intro l j h
    rw [List.foldl_cons]
    rcases List.mem_cons.mp h with rfl | hmem
    · by_cases hin : j ∈ rest
      · exact ih _ _ hin
      · rw [getD_foldl_set_notMem a a rest _ _ hin]
        by_cases hlt : j < l.length
        · exact getD_set_self _ _ _ _ hlt
        · exact List.getD_eq_default _ _ (by simp only [List.length_set]; omega)
    · exact ih _ _ hmem

theorem length_foldl_set {α} (a : α) : ∀ (xs : List Nat) (l : List α),
    (xs.foldl (fun l i => l.set i a) l).length = l.length := by
  intro xs
  induction xs with
  | nil => intro l; rfl
  | cons x rest ih => intro l; rw [List.foldl_cons, ih]; simp

/-- Flipping one allocated in-range bit to free raises the free count by 1. -/
theorem count_false_set : ∀ (m : List Bool) (s : Nat),
    s < m.length → m.getD s false = true →
    (m.set s false).count false = m.count false + 1 := by
  intro m
  induction m with
  | nil => intro s h; simp at h
  | cons b bs ih =>
    intro s hlt hal
    match s with
    | 0 =>
      simp at hal
      subst hal
      simp [List.count_cons]
    | s' + 1 =>
      rw [List.set_cons_succ]
      simp only [List.count_cons]
      rw [ih s' (by simpa using hlt) (by simpa using hal)]
      omega

theorem count_false_foldl : ∀ (secs : List Nat) (m : List Bool),
    secs.Nodup → (∀ s ∈ secs, s < m.length ∧ m.getD s false = true) →
    (secs.foldl (fun m s => m.set s false) m).count false
      = m.count false + secs.length := by
  intro secs
  induction secs with
  | nil => intro m _ _; simp
  | cons s rest ih =>
    intro m hnd hal
    obtain ⟨hs1, hs2⟩ := hal s (List.mem_cons_self _ _)
    rw [List.foldl_cons]
    rw [ih (m.set s false) (List.nodup_cons.mp hnd).2 ?_]
    · rw [count_false_set m s hs1 hs2]
      simp
      omega
    · intro x hx
      have hxs : x ≠ s := fun hh => (List.nodup_cons.mp hnd).1 (hh ▸ hx)
      obtain ⟨h1, h2⟩ := hal x (List.mem_cons_of_mem _ hx)
      exact ⟨by simpa using h1, by rw [getD_set_ne _ _ _ _ _ (fun hh => hxs hh.symm)]; exact h2⟩

/-- Walking a list of destroyed nodes frees nothing. -/
theorem freeSectorsRecList_dead : ∀ (fuel : Nat) (cs : List Nat) (fs : FS),
    (∀ c ∈ cs, fs.item c = none) → cs.length ≤ fuel →
    freeSectorsRecList fuel cs fs = (.ok (), fs) := by
  intro fuel
  induction fuel with
  | zero =>
    intro cs fs hdead hlen
    match cs with
    | [] => rfl
    | c :: rest => simp at hlen
  | succ fuel ih =>
    intro cs fs hdead hlen
    match cs with
    | [] => rfl
    | c :: rest =>
      rw [freeSectorsRecList]
      simp only [hdead c (List.mem_cons_self _ _)]
      exact ih rest fs (fun x hx => hdead x (List.mem_cons_of_mem _ hx))
        (by simpa using hlen)

/-- `freeSectorsRecursive(node)` on a node whose children have already
been destroyed (the situation in which `deleteTree` calls it): frees
exactly the node's own sectors. -/
theorem freeSectorsRecList_spec : ∀ (fuel : Nat) (id : Nat) (fs : FS) (it : Item),
    fs.item id = some it →
    (∀ c ∈ it.children, fs.item c = none) →
    (∀ s ∈ (if it.isFolder then [] else it.sectors), s < fs.sectorMap.length) →
    it.children.length + 1 ≤ fuel →
    freeSectorsRecList fuel [id] fs =
      (.ok (), { fs with
        sectorMap := (if it.isFolder then [] else it.sectors).foldl
          (fun m s => m.set s false) fs.sectorMap }) := by
  intro fuel id fs it hit hdead hrange hfuel
  match fuel with
  | f + 1 =>
    rw [freeSectorsRecList]
    simp only [hit]
    by_cases hf : it.isFolder
    · rw [if_pos hf]
      show freeSectorsRecList f (it.children ++ []) fs = _
      rw [List.append_nil]
      rw [freeSectorsRecList_dead f it.children fs hdead (by omega)]
      rw [if_pos hf]
      show ((Except.ok ()), fs) = ((.ok ()), { fs with sectorMap := fs.sectorMap })
      rfl
    · rw [if_neg hf]
      rw [if_neg hf] at hrange
      rw [freeList_spec it.sectors fs hrange]
      show freeSectorsRecList f (it.children ++ []) _ = _
      rw [List.append_nil]
      set fsF : FS :=
        { fs with sectorMap := it.sectors.foldl (fun m s => m.set s false) fs.sectorMap }
        with hFF
      have hdead2 : ∀ c ∈ it.children, fsF.item c = none := fun c hc => hdead c hc
      rw [freeSectorsRecList_dead f it.children fsF hdead2 (by omega)]
      rw [if_neg hf]

/-- Ghost collector mirroring `deleteTree` on a work-list of subtree
roots: returns the node ids in deletion (post-)order, the freed sectors
in chronological order, and the number of task steps the deletion
executes.  Computed against the state *before* the deletion starts. -/
def collectDel (fs : FS) : Nat → List Nat → Option (List Nat × List Nat × Nat)
  | _, [] => some ([], [], 0)
  | 0, _ :: _ => none
  | fuel + 1, id :: rest =>
    match fs.item id with
    | none =>
      match collectDel fs fuel rest with
      | none => none
      | some (ids, secs, steps) => some (ids, secs, steps + 1)
    | some it =>
      match collectDel fs fuel it.children with
      | none => none
      | some (cids, csecs, csteps) =>
        match collectDel fs fuel rest with
        | none => none
        | some (rids, rsecs, rsteps) =>
          some (cids ++ id :: rids,
                csecs ++ ((if it.isFolder then [] else it.sectors) ++ rsecs),
                csteps + rsteps + 2)

/-- Every live root appears among the collected ids. -/
theorem collectDel_mem_live : ∀ (cf : Nat) (roots : List Nat) (fs : FS)
    (ids secs : List Nat) (steps : Nat),
    collectDel fs cf roots = some (ids, secs, steps) →
    ∀ r ∈ roots, (∃ it, fs.item r = some it) → r ∈ ids := by
  intro cf
  induction cf with
  | zero =>
    intro roots fs ids secs steps h r hr
    match roots with
    | [] => simp at hr
    | _ :: _ => simp [collectDel] at h
  | succ cf ih =>
    intro roots fs ids secs steps h r hr hlive
    match roots with
    | [] => simp at hr
    | id :: rest =>
      rw [collectDel] at h
      match hid : fs.item id with
      | none =>
        simp only [hid] at h
        match hrest : collectDel fs cf rest with
        | none => rw [hrest] at h; cases h
        | some (ids1, secs1, steps1) =>
          rw [hrest] at h
          cases h
          rcases List.mem_cons.mp hr with rfl | hm
          · obtain ⟨it, hit⟩ := hlive
            rw [hid] at hit
            cases hit
          · exact ih rest fs _ _ _ hrest r hm hlive
      | some it =>
        simp only [hid] at h
        match hc : collectDel fs cf it.children with
        | none => rw [hc] at h; cases h
        | some (cids, csecs, csteps) =>
          rw [hc] at h
          match hrest : collectDel fs cf rest with
          | none => rw [hrest] at h; cases h
          | some (rids, rsecs, rsteps) =>
            rw [hrest] at h
            cases h
            rcases List.mem_cons.mp hr with rfl | hm
            · exact List.mem_append.mpr (Or.inr (List.mem_cons_self _ _))
            · exact List.mem_append.mpr (Or.inr (List.mem_cons_of_mem _
                (ih rest fs rids rsecs rsteps hrest r hm hlive)))

/-- The collector only looks at the items of nodes it reaches; deleting
nodes that it never lists as live leaves its result unchanged. -/
theorem collectDel_congr : ∀ (cf : Nat) (roots : List Nat) (fs fs2 : FS) (D : List Nat)
    (ids secs : List Nat) (steps : Nat),
    collectDel fs cf roots = some (ids, secs, steps) →
    (∀ j, j ∉ D → fs2.item j = fs.item j) →
    (∀ j ∈ D, fs2.item j = none) →
    (∀ j ∈ D, j ∉ ids) →
    collectDel fs2 cf roots = some (ids, secs, steps) := by
  intro cf
  induction cf with
  | zero =>
    intro roots fs fs2 D ids secs steps h _ _ _
    match roots with
    | [] => exact h
    | _ :: _ => simp [collectDel] at h
  | succ cf ih =>
    intro roots fs fs2 D ids secs steps h hoff hin hnot
    match roots with
    | [] => exact h
    | id :: rest =>
      rw [collectDel] at h
      rw [collectDel]
      match hid : fs.item id with
      | none =>
        simp only [hid] at h
        match hrest : collectDel fs cf rest with
        | none => rw [hrest] at h; cases h
        | some (ids1, secs1, steps1) =>
          rw [hrest] at h
          cases h
          have hid2 : fs2.item id = none := by
            by_cases hD : id ∈ D
            · exact hin id hD
            · rw [hoff id hD]; exact hid
          simp only [hid2]
          rw [ih rest fs fs2 D _ _ _ hrest hoff hin hnot]
      | some it =>
        simp only [hid] at h
        match hc : collectDel fs cf it.children with
        | none => rw [hc] at h; cases h
        | some (cids, csecs, csteps) =>
          rw [hc] at h
          match hrest : collectDel fs cf rest with
          | none => rw [hrest] at h; cases h
          | some (rids, rsecs, rsteps) =>
            rw [hrest] at h
            cases h
            have hidD : id ∉ D := by
              intro hD
              exact hnot id hD (List.mem_append.mpr (Or.inr (List.mem_cons_self _ _)))
            have hid2 : fs2.item id = some it := by rw [hoff id hidD]; exact hid
            simp only [hid2]
            rw [ih it.children fs fs2 D cids csecs csteps hc hoff hin
              (fun j hj hmem => hnot j hj (List.mem_append.mpr (Or.inl hmem)))]
            rw [ih rest fs fs2 D rids rsecs rsteps hrest hoff hin
              (fun j hj hmem => hnot j hj
                (List.mem_append.mpr (Or.inr (List.mem_cons_of_mem _ hmem))))]

theorem deleteTreeTasks_run : ∀ (cf : Nat) (roots : List Nat) (fuel : Nat)
    (rest : List DelTask) (fs : FS) (ids secs : List Nat) (steps : Nat),
    collectDel fs cf roots = some (ids, secs, steps) →
    ids.Nodup →
    (∀ s ∈ secs, s < fs.sectorMap.length) →
    (∀ i ∈ ids, ∀ it, fs.item i = some it → it.children.length ≤ fs.items.length) →
    steps ≤ fuel →
    deleteTreeTasks fuel (roots.map DelTask.visit ++ rest) fs =
      deleteTreeTasks (fuel - steps) rest
        { fs with items := ids.foldl (fun l i => l.set i none) fs.items,
                  sectorMap := secs.foldl (fun m s => m.set s false) fs.sectorMap } := by
  intro cf
  induction cf with
  | zero =>
    intro roots fuel rest fs ids secs steps h _ _ _ _
    match roots with
    | [] =>
      cases h
      rfl
    | _ :: _ => simp [collectDel] at h
  | succ cf ih =>
    intro roots fuel rest fs ids secs steps h hnd hrange hcb hfuel
    match roots with
    | [] =>
      cases h
      rfl
    | id :: restroots =>
      rw [collectDel] at h
      match hid : fs.item id with
      | none =>
        simp only [hid] at h
        match hrest : collectDel fs cf restroots with
        | none => rw [hrest] at h; cases h
        | some (ids1, secs1, steps1) =>
          rw [hrest] at h
          cases h
          match fuel, hfuel with
          | f + 1, hfuel =>
            have hexec : deleteTreeTasks (f + 1)
                ((id :: restroots).map DelTask.visit ++ rest) fs =
                deleteTreeTasks f (restroots.map DelTask.visit ++ rest) fs := by
              rw [List.map_cons, List.cons_append, deleteTreeTasks]
              simp only [hid]
            rw [hexec, ih restroots f rest fs ids secs steps1 hrest hnd hrange hcb
              (by omega)]
            congr 1
            omega
      | some it =>
        simp only [hid] at h
        match hc : collectDel fs cf it.children with
        | none => rw [hc] at h; cases h
        | some (cids, csecs, csteps) =>
          rw [hc] at h
          match hrest : collectDel fs cf restroots with
          | none => rw [hrest] at h; cases h
          | some (rids, rsecs, rsteps) =>
            rw [hrest] at h
            cases h
            obtain ⟨hndc, hndm, hdisj⟩ := List.nodup_append.mp hnd
            have hid_nc : id ∉ cids := fun hm => hdisj hm (List.mem_cons_self _ _)
            have hid_nr : id ∉ rids := (List.nodup_cons.mp hndm).1
            have hndr : rids.Nodup := (List.nodup_cons.mp hndm).2
            have hmem_ids : ∀ x, x ∈ cids ∨ x = id ∨ x ∈ rids →
                x ∈ cids ++ id :: rids := by
              intro x hx
              rcases hx with hx | rfl | hx
              · exact List.mem_append.mpr (Or.inl hx)
              · exact List.mem_append.mpr (Or.inr (List.mem_cons_self _ _))
              · exact List.mem_append.mpr (Or.inr (List.mem_cons_of_mem _ hx))
            have hsec_mem : ∀ x, x ∈ csecs ∨
                x ∈ (if it.isFolder then [] else it.sectors) ∨ x ∈ rsecs →
                x ∈ csecs ++ ((if it.isFolder then [] else it.sectors) ++ rsecs) := by
              intro x hx
              rcases hx with hx | hx | hx
              · exact List.mem_append.mpr (Or.inl hx)
              · exact List.mem_append.mpr (Or.inr (List.mem_append.mpr (Or.inl hx)))
              · exact List.mem_append.mpr (Or.inr (List.mem_append.mpr (Or.inr hx)))
            match fuel, hfuel with
            | f + 1, hfuel =>
              have hexec : deleteTreeTasks (f + 1)
                  ((id :: restroots).map DelTask.visit ++ rest) fs =
                  deleteTreeTasks f (it.children.map DelTask.visit ++
                    (DelTask.dispose id :: (restroots.map DelTask.visit ++ rest))) fs := by
                rw [List.map_cons, List.cons_append, deleteTreeTasks]
                simp only [hid]
              set fs1 : FS :=
                { fs with items := cids.foldl (fun l i => l.set i none) fs.items,
                          sectorMap := csecs.foldl (fun m s => m.set s false) fs.sectorMap }
                with hfs1
              have hstepA : deleteTreeTasks f (it.children.map DelTask.visit ++
                  (DelTask.dispose id :: (restroots.map DelTask.visit ++ rest))) fs =
                  deleteTreeTasks (f - csteps)
                    (DelTask.dispose id :: (restroots.map DelTask.visit ++ rest)) fs1 := by
                exact ih it.children f _ fs cids csecs csteps hc hndc
                  (fun s hs => hrange s (hsec_mem s (Or.inl hs)))
                  (fun i hi => hcb i (hmem_ids i (Or.inl hi)))
                  (by omega)
              have hit1 : fs1.item id = some it := by
                show (cids.foldl (fun l i => l.set i none) fs.items).getD id none = some it
                rw [getD_foldl_set_notMem _ _ _ _ _ hid_nc]
                exact hid
              have hdead1 : ∀ c ∈ it.children, fs1.item c = none := by
                intro c hcm
                show (cids.foldl (fun l i => l.set i none) fs.items).getD c none = none
                match hcc : fs.item c with
                | some cit =>
                  have : c ∈ cids := collectDel_mem_live cf it.children fs cids csecs
                    csteps hc c hcm ⟨cit, hcc⟩
                  exact getD_foldl_set_mem none cids fs.items c this
                | none =>
                  by_cases hin : c ∈ cids
                  · exact getD_foldl_set_mem none cids fs.items c hin
                  · rw [getD_foldl_set_notMem _ _ _ _ _ hin]
                    exact hcc
              have hlen1items : fs1.items.length = fs.items.length := by
                show (cids.foldl (fun l i => l.set i none) fs.items).length = _
                exact length_foldl_set _ _ _
              have hlen1sm : fs1.sectorMap.length = fs.sectorMap.length := by
                show (csecs.foldl (fun m s => m.set s false) fs.sectorMap).length = _
                exact length_foldl_set_false _ _
              have hrange1 : ∀ s ∈ (if it.isFolder then [] else it.sectors),
                  s < fs1.sectorMap.length := by
                intro s hs
                rw [hlen1sm]
                exact hrange s (hsec_mem s (Or.inr (Or.inl hs)))
              have hcb1 : it.children.length + 1 ≤ fs1.items.length + 1 := by
                rw [hlen1items]
                have := hcb id (hmem_ids id (Or.inr (Or.inl rfl))) it hid
                omega
              have hfree := freeSectorsRecList_spec (fs1.items.length + 1) id fs1 it
                hit1 hdead1 hrange1 hcb1
              match hg : f - csteps with
              | 0 => omega
              | g + 1 =>
                have hstepB : deleteTreeTasks (g + 1)
                    (DelTask.dispose id :: (restroots.map DelTask.visit ++ rest)) fs1 =
                    deleteTreeTasks g (restroots.map DelTask.visit ++ rest)
                      (FS.deleteItem { fs1 with
                        sectorMap := (if it.isFolder then [] else it.sectors).foldl
                          (fun m s => m.set s false) fs1.sectorMap } id) := by
                  rw [deleteTreeTasks, hfree]
                set fs2 : FS :=
                  FS.deleteItem { fs1 with
                    sectorMap := (if it.isFolder then [] else it.sectors).foldl
                      (fun m s => m.set s false) fs1.sectorMap } id
                  with hfs2
                have hfs2items : fs2.items =
                    (cids ++ [id]).foldl (fun l i => l.set i none) fs.items := by
                  rw [List.foldl_append]
                  rfl
                have hfs2sm : fs2.sectorMap =
                    (csecs ++ (if it.isFolder then [] else it.sectors)).foldl
                      (fun m s => m.set s false) fs.sectorMap := by
                  rw [List.foldl_append]
                  rfl
                have hD_not : ∀ j ∈ cids ++ [id], j ∉ rids := by
                  intro j hj
                  rcases List.mem_append.mp hj with hj | hj
                  · exact fun hm => hdisj hj (List.mem_cons_of_mem _ hm)
                  · rcases List.mem_singleton.mp hj with rfl
                    exact hid_nr
                have hcongr : collectDel fs2 cf restroots = some (rids, rsecs, rsteps) := by
                  refine collectDel_congr cf restroots fs fs2 (cids ++ [id]) rids rsecs
                    rsteps hrest ?_ ?_ hD_not
                  · intro j hj
                    show fs2.item j = fs.item j
                    rw [FS.item, hfs2items, getD_foldl_set_notMem _ _ _ _ _ hj]
                    rfl
                  · intro j hj
                    show fs2.item j = none
                    rw [FS.item, hfs2items]
                    exact getD_foldl_set_mem none _ _ _ hj
                have hlen2sm : fs2.sectorMap.length = fs.sectorMap.length := by
                  rw [hfs2sm]
                  exact length_foldl_set_false _ _
                have hlen2items : fs2.items.length = fs.items.length := by
                  rw [hfs2items]
                  exact length_foldl_set _ _ _
                have hstepC : deleteTreeTasks g (restroots.map DelTask.visit ++ rest) fs2 =
                    deleteTreeTasks (g - rsteps) rest
                      { fs2 with
                        items := rids.foldl (fun l i => l.set i none) fs2.items,
                        sectorMap := rsecs.foldl (fun m s => m.set s false) fs2.sectorMap } := by
                  refine ih restroots g rest fs2 rids rsecs rsteps hcongr hndr ?_ ?_ (by omega)
                  · intro s hs
                    rw [hlen2sm]
                    exact hrange s (hsec_mem s (Or.inr (Or.inr hs)))
                  · intro i hi it2 hit2
                    rw [hlen2items]
                    have hiD : i ∉ cids ++ [id] := by
                      intro hmem
                      exact hD_not i hmem hi
                    have : fs.item i = some it2 := by
                      rw [← hit2, FS.item, FS.item, hfs2items,
                        getD_foldl_set_notMem _ _ _ _ _ hiD]
                    exact hcb i (hmem_ids i (Or.inr (Or.inr hi))) it2 this
                rw [hexec, hstepA, hg, hstepB, hstepC]
                have hitems_eq : List.foldl (fun l i => l.set i none) fs2.items rids =
                    List.foldl (fun l i => l.set i none) fs.items (cids ++ id :: rids) := by
                  rw [hfs2items, ← List.foldl_append, List.append_assoc,
                    List.singleton_append]
                have hsm_eq : List.foldl (fun m s => m.set s false) fs2.sectorMap rsecs =
                    List.foldl (fun m s => m.set s false) fs.sectorMap
                      (csecs ++ ((if it.isFolder then [] else it.sectors) ++ rsecs)) := by
                  rw [hfs2sm, ← List.foldl_append, List.append_assoc]
                have hfuel_eq : g - rsteps = f + 1 - (csteps + rsteps + 2) := by omega
                rw [hfuel_eq, hitems_eq, hsm_eq]
                rfl

/-- Number of free sectors: bitmap entries that are `false`. -/
def countFree (fs : FS) : Nat := fs.sectorMap.count false

theorem deleteTreeTasks_nil (fuel : Nat) (fs : FS) :
    deleteTreeTasks fuel [] fs = (.ok (), fs) := by
  match fuel with
  | 0 => rfl
  | _ + 1 => rfl

/-- C5: `rm(name, recursive)` on a direct child of the current directory.
(1) If the target is a non-empty directory and `recursive` is false, `rm`
fails with NotEmpty and the whole state (tree, bitmap, disk) is returned
unchanged.  (2) With `recursive` true, when the post-order collection of
the unlinked subtree yields node ids `ids` and the chronological list
`secs` of all sectors owned by Files in the subtree (node ids distinct,
sectors distinct, in range and currently allocated, arena-bounded child
lists, trace within the fuel `rm` passes), `rm` succeeds, the final state
is exactly the unlinked state with those nodes deleted and those sectors
cleared, and the free-sector count increases by exactly `secs.length`,
the sum of the sector counts of all Files in the removed subtree. -/
theorem claim_C5_rm (fs : FS) (name : String) (tid : Nat) (tit : Item)
    (hfind : findChild fs (fs.childrenOf fs.currentDir) name = some (tid, tit)) :
    (tit.isFolder = true → tit.children ≠ [] →
      FS.rm fs name false = (fs, some Err.notEmpty)) ∧
    (∀ (ids secs : List Nat) (steps : Nat),
      collectDel
        (fs.modifyItem fs.currentDir
          (fun it => { it with children := it.children.erase tid }))
        (2 * fs.items.length + 2) [tid] = some (ids, secs, steps) →
      ids.Nodup → secs.Nodup →
      (∀ s ∈ secs, s < fs.sectorMap.length ∧ fs.sectorMap.getD s false = true) →
      (∀ i ∈ ids, ∀ it2,
        (fs.modifyItem fs.currentDir
          (fun it => { it with children := it.children.erase tid })).item i = some it2 →
        it2.children.length ≤ fs.items.length) →
      steps ≤ 2 * fs.items.length + 2 →
      FS.rm fs name true =
        ({ fs.modifyItem fs.currentDir
            (fun it => { it with children := it.children.erase tid }) with
           items := ids.foldl (fun l i => l.set i none)
             (fs.modifyItem fs.currentDir
               (fun it => { it with children := it.children.erase tid })).items,
           sectorMap := secs.foldl (fun m s => m.set s false) fs.sectorMap }, none) ∧
      countFree (FS.rm fs name true).1 = countFree fs + secs.length) := by
  constructor
  · intro hf hne
    rw [FS.rm]
    simp only [hfind]
    rw [if_pos ⟨hf, hne, by simp⟩]
  · intro ids secs steps hcoll hnd hndsec hsec hcb hsteps
    have hlen : (fs.modifyItem fs.currentDir
        (fun it => { it with children := it.children.erase tid })).items.length
        = fs.items.length := modifyItem_items_length fs _ _
    have hrun := deleteTreeTasks_run (2 * fs.items.length + 2) [tid]
      (2 * (fs.modifyItem fs.currentDir
        (fun it => { it with children := it.children.erase tid })).items.length + 2)
      []
      (fs.modifyItem fs.currentDir
        (fun it => { it with children := it.children.erase tid }))
      ids secs steps hcoll hnd
      (fun s hs => by
        rw [modifyItem_sectorMap]
        exact (hsec s hs).1)
      (fun i hi it2 hit2 => by
        rw [hlen]
        exact hcb i hi it2 hit2)
      (by rw [hlen]; omega)
    simp only [List.map_cons, List.map_nil, List.cons_append, List.nil_append,
      modifyItem_sectorMap] at hrun
    rw [deleteTreeTasks_nil] at hrun
    have hrm : FS.rm fs name true =
        ({ fs.modifyItem fs.currentDir
            (fun it => { it with children := it.children.erase tid }) with
           items := ids.foldl (fun l i => l.set i none)
             (fs.modifyItem fs.currentDir
               (fun it => { it with children := it.children.erase tid })).items,
           sectorMap := secs.foldl (fun m s => m.set s false) fs.sectorMap }, none) := by
      rw [FS.rm]
      simp only [hfind]
      rw [if_neg (by simp)]
      rw [deleteTreeAux, hrun]
    refine ⟨hrm, ?_⟩
    rw [hrm]
    show (secs.foldl (fun m s => m.set s false) fs.sectorMap).count false
      = fs.sectorMap.count false + secs.length
    exact count_false_foldl secs fs.sectorMap hndsec hsec

/-- A 4-sector filesystem holding `/d/f` where `f` occupies sectors 0 and 1
(65 bytes), with the current directory back at the root. -/
def rmWitnessFS : FS :=
  ((FS.put (((FS.init 4).mkdir "d").1.cd "d").1 "f" content65 ".").1.cd "..").1

def rmWitnessItem : Item :=
  { isFolder := true, name := "d", content := [], sectors := [], children := [2],
    parent := some 0 }

/-- Witness for C5: `rm "d"` without `recursive` fails with NotEmpty leaving
the state untouched; with `recursive` it succeeds and the free-sector count
rises by exactly 2, the number of sectors held by the file in the removed
subtree. -/
theorem claim_C5_witness :
    FS.rm rmWitnessFS "d" false = (rmWitnessFS, some Err.notEmpty) ∧
    (FS.rm rmWitnessFS "d" true).2 = none ∧
    countFree (FS.rm rmWitnessFS "d" true).1 = countFree rmWitnessFS + 2 := by
  have hcb : ∀ i ∈ [2, 1], ∀ it2,
      (rmWitnessFS.modifyItem rmWitnessFS.currentDir
        (fun it => { it with children := it.children.erase 1 })).item i = some it2 →
      it2.children.length ≤ rmWitnessFS.items.length := by
    intro i hi it2 hit2
    rcases List.mem_cons.mp hi with rfl | hi2
    · have he : (rmWitnessFS.modifyItem rmWitnessFS.currentDir
          (fun it => { it with children := it.children.erase 1 })).item 2
          = some { isFolder := false, name := "f", content := content65,
                   sectors := [0, 1], children := [], parent := some 1 } := by decide
      rw [he] at hit2
      cases hit2
      decide
    · rcases List.mem_cons.mp hi2 with rfl | hi3
      · have he : (rmWitnessFS.modifyItem rmWitnessFS.currentDir
            (fun it => { it with children := it.children.erase 1 })).item 1
            = some { isFolder := true, name := "d", content := [],
                     sectors := [], children := [2], parent := some 0 } := by decide
        rw [he] at hit2
        cases hit2
        decide
      · cases hi3
  have h := claim_C5_rm rmWitnessFS "d" 1 rmWitnessItem (by decide)
  have h2 := h.2 [2, 1] [0, 1] 4 (by decide) (by decide) (by decide) (by decide)
    hcb (by decide)
  refine ⟨h.1 (by decide) (by decide), ?_, ?_⟩
  · rw [h2.1]
  · exact h2.2

/-! ## C6: the deep-copy engine (`copyItem`) -/

/-- The observable shape of a subtree: kind, name, content bytes and the
children in order — arena indices and sector ids erased. -/
inductive TreeC where
  | node (isFolder : Bool) (name : String) (content : List Char)
      (children : List TreeC)

mutual
/-- Observable shape of the subtree rooted at `id` (fuel-bounded). -/
def shapeAux : Nat → FS → Nat → Option TreeC
  | 0, _, _ => none
  | fuel + 1, fs, id =>
    match fs.item id with
    | none => none
    | some it =>
      match shapeListAux fuel fs it.children with
      | none => none
      | some ts => some (.node it.isFolder it.name it.content ts)
termination_by structural fuel _ _ => fuel

/-- Observable shapes of a list of subtrees, in order (fuel-bounded). -/
def shapeListAux : Nat → FS → List Nat → Option (List TreeC)
  | _, _, [] => some []
  | 0, _, _ :: _ => none
  | fuel + 1, fs, c :: rest =>
    match shapeAux fuel fs c with
    | none => none
    | some t =>
      match shapeListAux fuel fs rest with
      | none => none
      | some ts => some (t :: ts)
termination_by structural fuel _ _ => fuel
end

theorem shapeListAux_nil (fuel : Nat) (fs : FS) :
    shapeListAux fuel fs [] = some [] := by
  match fuel with
  | 0 => rfl
  | _ + 1 => rfl

/-- Shape only looks at arena slots below `n` when the start index is
below `n` and the region below `n` is closed under children. -/
theorem shape_congr : ∀ (fuel : Nat) (fsA fsB : FS) (n : Nat),
    (∀ j, j < n → fsA.item j = fsB.item j) →
    (∀ j jt, j < n → fsA.item j = some jt → ∀ c ∈ jt.children, c < n) →
    (∀ id, id < n → shapeAux fuel fsA id = shapeAux fuel fsB id) ∧
    (∀ cs, (∀ c ∈ cs, c < n) → shapeListAux fuel fsA cs = shapeListAux fuel fsB cs) := by
  intro fuel
  induction fuel with
  | zero =>
    intro fsA fsB n hag hcl
    refine ⟨fun id _ => rfl, fun cs hcs => ?_⟩
    match cs with
    | [] => rfl
    | _ :: _ => rfl
  | succ f ih =>
    intro fsA fsB n hag hcl
    obtain ⟨ih1, ih2⟩ := ih fsA fsB n hag hcl
    constructor
    · intro id hid
      rw [shapeAux, shapeAux, hag id hid]
      match hB : fsB.item id with
      | none => simp only [hB]
      | some it =>
        simp only [hB]
        have hchild : ∀ c ∈ it.children, c < n :=
          hcl id it hid (by rw [hag id hid]; exact hB)
        rw [ih2 it.children hchild]
    · intro cs hcs
      match cs with
      | [] => rfl
      | c :: rest =>
        rw [shapeListAux, shapeListAux,
          ih1 c (hcs c (List.mem_cons_self _ _)),
          ih2 rest (fun x hx => hcs x (List.mem_cons_of_mem _ hx))]

theorem freeList_items : ∀ (secs : List Nat) (fs : FS),
    (freeList secs fs).2.items = fs.items := by
  intro secs
  induction secs with
  | nil => intro fs; rfl
  | cons s rest ih =>
    intro fs
    rw [freeList, freeSector]
    by_cases h : s ≥ fs.sectorMap.length
    · rw [if_pos h]
    · rw [if_neg h]
      exact ih _

theorem writeChunks_item_ne : ∀ (cs : List (List Char)) (fid : Nat) (fs : FS)
    (j : Nat), j ≠ fid → (writeChunks fid cs fs).2.item j = fs.item j := by
  intro cs
  induction cs with
  | nil => intro fid fs j _; rfl
  | cons c rest ih =>
    intro fid fs j h
    rw [writeChunks, allocateSector]
    match hf : firstFree fs.sectorMap with
    | none => simp only [hf]
    | some i =>
      simp only [hf]
      rw [ih _ _ _ h]
      show (({ fs with sectorMap := fs.sectorMap.set i true } : FS).modifyItem fid
        (fun it => { it with sectors := it.sectors ++ [i] })).item j = fs.item j
      rw [item_modifyItem_ne _ _ _ _ h]
      rfl

theorem saveToDisk_item_ne (fid : Nat) (fs : FS) (j : Nat) (h : j ≠ fid) :
    (saveToDisk fid fs).2.item j = fs.item j := by
  rw [saveToDisk]
  match hit : fs.item fid with
  | none => simp only [hit]
  | some it =>
    simp only [hit]
    by_cases hfo : it.isFolder
    · rw [if_pos hfo]
    · rw [if_neg hfo]
      match hfl : freeList it.sectors fs with
      | (.error e, fs1) =>
        simp only [hfl]
        have hfi : fs1.items = fs.items := by
          have hh := freeList_items it.sectors fs
          rw [hfl] at hh
          exact hh
        show fs1.items.getD j none = fs.items.getD j none
        rw [hfi]
      | (.ok u, fs1) =>
        simp only [hfl]
        have hfi : fs1.items = fs.items := by
          have hh := freeList_items it.sectors fs
          rw [hfl] at hh
          exact hh
        rw [writeChunks_item_ne _ _ _ _ h, item_modifyItem_ne _ _ _ _ h]
        show fs1.items.getD j none = fs.items.getD j none
        rw [hfi]

/-- Rewriting a node's content afterwards: mutate the `content` field,
then `saveToDisk` it (the source's content-edit path). -/
def rewriteContent (fid : Nat) (c : List Char) (fs : FS) : Except Err Unit × FS :=
  saveToDisk fid (fs.modifyItem fid (fun it => { it with content := c }))

theorem rewriteContent_item_ne (fid : Nat) (c : List Char) (fs : FS) (j : Nat)
    (h : j ≠ fid) : (rewriteContent fid c fs).2.item j = fs.item j := by
  rw [rewriteContent, saveToDisk_item_ne _ _ _ h, item_modifyItem_ne _ _ _ _ h]

/-- Decidable check that every live node's children indices lie inside
the arena. -/
def arenaClosed (fs : FS) : Bool :=
  fs.items.all (fun o =>
    match o with
    | none => true
    | some it => it.children.all (fun c => decide (c < fs.items.length)))

theorem arenaClosed_spec {fs : FS} (h : arenaClosed fs = true) :
    ∀ j jt, fs.item j = some jt → ∀ c ∈ jt.children, c < fs.items.length := by
  intro j jt hj c hc
  rw [arenaClosed, List.all_eq_true] at h
  have hlt : j < fs.items.length := item_some_lt hj
  have hel : fs.items.getD j none = some jt := hj
  rw [List.getD_eq_getElem _ _ hlt] at hel
  have hmem : some jt ∈ fs.items := hel ▸ List.getElem_mem _
  have h2 := h (some jt) hmem
  simp only [List.all_eq_true, decide_eq_true_eq] at h2
  exact h2 c hc

/-- Joint specification of `copyItemAux` / `copyChildren`: the copy is
placed in fresh arena slots, pre-existing slots are untouched, every
sector handed to a copied File was free beforehand and is allocated
afterwards, the copy has the same observable shape (kind, names,
content bytes, child order) as the source, and arena-closedness of
children pointers is preserved.  The shape clauses are stated for any
later state agreeing with the result on the freshly created region, so
they survive the surrounding recursion.  -/
theorem copy_spec : ∀ fuel : Nat,
    (∀ srcId parentId fs newId fs1,
      copyItemAux fuel srcId parentId fs = (.ok newId, fs1) →
      (∀ j jt, fs.item j = some jt → ∀ c ∈ jt.children, c < fs.items.length) →
      newId = fs.items.length ∧
      fs.items.length < fs1.items.length ∧
      (∀ j, j < fs.items.length → fs1.item j = fs.item j) ∧
      (∀ fuel2 fs2,
        (∀ j, fs.items.length ≤ j → j < fs1.items.length → fs2.item j = fs1.item j) →
        shapeAux fuel2 fs2 newId = shapeAux fuel2 fs srcId) ∧
      (∀ j jt, fs.items.length ≤ j → fs1.item j = some jt →
        ∀ s ∈ jt.sectors, fs.sectorMap.getD s false = false ∧
          fs1.sectorMap.getD s false = true) ∧
      (∀ s, fs.sectorMap.getD s false = true → fs1.sectorMap.getD s false = true) ∧
      (∀ j jt, fs1.item j = some jt → ∀ c ∈ jt.children, c < fs1.items.length) ∧
      fs1.root = fs.root ∧ fs1.currentDir = fs.currentDir ∧
      fs1.totalSectors = fs.totalSectors ∧
      fs1.sectorMap.length = fs.sectorMap.length) ∧
    (∀ cs parentNew fs fs1 pit,
      copyChildren fuel cs parentNew fs = (.ok (), fs1) →
      (∀ j jt, fs.item j = some jt → ∀ c ∈ jt.children, c < fs.items.length) →
      fs.item parentNew = some pit →
      (∀ j jt, j < parentNew → fs.item j = some jt → ∀ c ∈ jt.children, c < parentNew) →
      (∀ c ∈ cs, c < parentNew) →
      fs.items.length ≤ fs1.items.length ∧
      (∀ j, j < fs.items.length → j ≠ parentNew → fs1.item j = fs.item j) ∧
      (∃ newIds : List Nat,
        fs1.item parentNew = some { pit with children := pit.children ++ newIds } ∧
        (∀ n ∈ newIds, fs.items.length ≤ n ∧ n < fs1.items.length) ∧
        (∀ fuel2 fs2,
          (∀ j, fs.items.length ≤ j → j < fs1.items.length → fs2.item j = fs1.item j) →
          shapeListAux fuel2 fs2 newIds = shapeListAux fuel2 fs cs)) ∧
      (∀ j jt, fs.items.length ≤ j → fs1.item j = some jt →
        ∀ s ∈ jt.sectors, fs.sectorMap.getD s false = false ∧
          fs1.sectorMap.getD s false = true) ∧
      (∀ s, fs.sectorMap.getD s false = true → fs1.sectorMap.getD s false = true) ∧
      (∀ j jt, fs1.item j = some jt → ∀ c ∈ jt.children, c < fs1.items.length) ∧
      fs1.root = fs.root ∧ fs1.currentDir = fs.currentDir ∧
      fs1.totalSectors = fs.totalSectors ∧
      fs1.sectorMap.length = fs.sectorMap.length) := by
  intro fuel
  induction fuel with
  | zero =>
    constructor
    · intro srcId parentId fs newId fs1 hrun _
      rw [copyItemAux] at hrun
      exact absurd (congrArg Prod.fst hrun) (by simp)
    · intro cs parentNew fs fs1 pit hrun hcl hpit hclB hcs
      match cs with
      | [] =>
        rw [copyChildren] at hrun
        cases hrun
        refine ⟨Nat.le_refl _, fun j _ _ => rfl, ⟨[], by simp [hpit], by simp, ?_⟩,
          fun j jt hj hjt => absurd (item_some_lt hjt) (by omega),
          fun s h => h, hcl, rfl, rfl, rfl, rfl⟩
        intro fuel2 fs2 _
        rw [shapeListAux_nil, shapeListAux_nil]
      | c :: rest =>
        rw [copyChildren] at hrun
        exact absurd (congrArg Prod.fst hrun) (by simp)
  | succ fuel ih =>
    obtain ⟨ihA, ihB⟩ := ih
    constructor
    · intro srcId parentId fs newId fs1 hrun hcl
      rw [copyItemAux] at hrun
      match hsrc : fs.item srcId with
      | none =>
        simp only [hsrc] at hrun
        exact absurd (congrArg Prod.fst hrun) (by simp)
      | some s =>
        simp only [hsrc] at hrun
        set nd : Item := { isFolder := s.isFolder, name := s.name, content := s.content, sectors := [], children := [], parent := some parentId } with hnd
        have hp1 : (fs.newItem nd).1 = fs.items.length := rfl
        have hplen : (fs.newItem nd).2.items.length = fs.items.length + 1 := by
          show (fs.items ++ [some nd]).length = fs.items.length + 1
          simp
        have hpsm : (fs.newItem nd).2.sectorMap = fs.sectorMap := rfl
        have hpself : (fs.newItem nd).2.item fs.items.length = some nd := by
          rw [← hp1]
          exact item_newItem_self fs nd
        have hplt : ∀ j, j < fs.items.length → (fs.newItem nd).2.item j = fs.item j :=
          fun j hj => item_newItem_lt fs nd hj
        have hpgt : ∀ j, fs.items.length < j → (fs.newItem nd).2.item j = none := by
          intro j hj
          show (fs.items ++ [some nd]).getD j none = none
          rw [getD_snoc_gt _ _ _ _ hj]
        have hclP : ∀ j jt, (fs.newItem nd).2.item j = some jt →
            ∀ c ∈ jt.children, c < (fs.newItem nd).2.items.length := by
          intro j jt hj c hc
          rw [hplen]
          rcases Nat.lt_trichotomy j fs.items.length with hlt | heq | hgt
          · rw [hplt j hlt] at hj
            have := hcl j jt hj c hc
            omega
          · rw [heq, hpself] at hj
            cases hj
            exact absurd hc (List.not_mem_nil c)
          · rw [hpgt j hgt] at hj
            cases hj
        have hclB1 : ∀ j jt, j < (fs.newItem nd).1 →
            (fs.newItem nd).2.item j = some jt →
            ∀ c ∈ jt.children, c < (fs.newItem nd).1 := by
          intro j jt hj hjt c hc
          rw [hp1] at hj ⊢
          rw [hplt j hj] at hjt
          exact hcl j jt hjt c hc
        have hcs1 : ∀ c ∈ s.children, c < (fs.newItem nd).1 := by
          intro c hc
          rw [hp1]
          exact hcl srcId s hsrc c hc
        cases hf : s.isFolder with
        | true =>
          rw [hf] at hrun
          rw [if_pos rfl] at hrun
          match hcc : copyChildren fuel s.children (fs.newItem nd).1
              (fs.newItem nd).2 with
          | (.error e, fsE) =>
            simp only [hcc] at hrun
            exact absurd (congrArg Prod.fst hrun) (by simp)
          | (.ok u, fs2) =>
            simp only [hcc] at hrun
            cases hrun
            obtain ⟨hB1, hB2, ⟨newIds, hBpar, hBbnd, hBshape⟩,
              hB4, hB5, hB6, hB7, hB8, hB9, hB10⟩ :=
              ihB s.children (fs.newItem nd).1 (fs.newItem nd).2 fs1 nd hcc hclP
                (hp1 ▸ hpself) hclB1 hcs1
            rw [hplen] at hB1
            have hfr : ∀ j, j < fs.items.length → fs1.item j = fs.item j := by
              intro j hj
              rw [hB2 j (by omega) (by omega), hplt j hj]
            refine ⟨hp1, by omega, hfr, ?_, ?_, ?_, ?_, ?_, ?_, ?_, ?_⟩
            · -- shape correspondence
              intro fuel2 fs2' hag
              match fuel2 with
              | 0 => rfl
              | f2 + 1 =>
                have hid : fs2'.item (fs.newItem nd).1 = fs1.item (fs.newItem nd).1 :=
                  hag _ (by omega) (by omega)
                have hpar2 : fs1.item (fs.newItem nd).1 =
                    some ({ isFolder := s.isFolder, name := s.name,
                            content := s.content, sectors := [],
                            children := newIds, parent := some parentId } : Item) := by
                  rw [hBpar]
                  rfl
                have hlist : shapeListAux f2 fs2' newIds =
                    shapeListAux f2 fs s.children := by
                  have step1 := hBshape f2 fs2' (fun j hj1 hj2 => hag j (by omega) hj2)
                  have step2 := (shape_congr f2 fs (fs.newItem nd).2 fs.items.length
                    (fun j hj => (hplt j hj).symm)
                    (fun j jt hj hjt c hc => hcl j jt hjt c hc)
                    ).2 s.children (fun c hc => hcl srcId s hsrc c hc)
                  exact step1.trans step2.symm
                rw [shapeAux, shapeAux, hsrc, hid, hpar2]
                simp only [hlist]
            · -- freshness
              intro j jt hj hjt sct hs
              rcases Nat.eq_or_lt_of_le hj with heq | hgt
              · subst heq
                rw [hp1] at hBpar
                rw [hBpar] at hjt
                cases hjt
                exact absurd hs (List.not_mem_nil sct)
              · have := hB4 j jt (by omega) hjt sct hs
                rw [hpsm] at this
                exact this
            · intro sct hst
              exact hB5 sct (by rw [hpsm]; exact hst)
            · exact hB6
            · exact hB7
            · exact hB8
            · exact hB9
            · exact hB10
        | false =>
          rw [hf] at hrun
          rw [if_neg (by simp)] at hrun
          match hsv : saveToDisk (fs.newItem nd).1 (fs.newItem nd).2 with
          | (.error e, fsE) =>
            simp only [hsv] at hrun
            exact absurd (congrArg Prod.fst hrun) (by simp)
          | (.ok u, fsS) =>
            simp only [hsv] at hrun
            obtain ⟨secs, w1, w2, w3, w4, w5, w6, w7, w8, w9, w10, w11, w12, w13, w14⟩ :=
              saveToDisk_spec (fs.newItem nd).2 (fs.newItem nd).1 nd (hp1 ▸ hpself)
                hf (by intro x hx; exact absurd hx (List.not_mem_nil x))
            simp only [hsv] at w1 w2 w5 w10 w11 w12 w13 w14
            have hSlen : fsS.items.length = fs.items.length + 1 := by
              rw [w10, hplen]
            have hSsm : fsS.sectorMap =
                secs.foldl (fun m s => m.set s true) fs.sectorMap := w5
            have hSfree : ∀ x ∈ secs, x < fs.sectorMap.length ∧
                fs.sectorMap.getD x false = false := fun x hx => w4 x hx
            have hSlt : ∀ j, j < fs.items.length → fsS.item j = fs.item j := by
              intro j hj
              rw [w2 j (by rw [hp1]; omega)]
              exact hplt j hj
            have hSgt : ∀ j, fs.items.length < j → fsS.item j = none := by
              intro j hj
              rw [w2 j (by rw [hp1]; omega)]
              exact hpgt j hj
            have hclS : ∀ j jt, fsS.item j = some jt →
                ∀ c ∈ jt.children, c < fsS.items.length := by
              intro j jt hj c hc
              rw [hSlen]
              rcases Nat.lt_trichotomy j fs.items.length with hlt | heq | hgt
              · rw [hSlt j hlt] at hj
                have := hcl j jt hj c hc
                omega
              · rw [heq, ← hp1] at hj
                rw [w1] at hj
                cases hj
                exact absurd hc (List.not_mem_nil c)
              · rw [hSgt j hgt] at hj
                cases hj
            have hclB2 : ∀ j jt, j < (fs.newItem nd).1 →
                fsS.item j = some jt → ∀ c ∈ jt.children, c < (fs.newItem nd).1 := by
              intro j jt hj hjt c hc
              rw [hp1] at hj ⊢
              rw [hSlt j hj] at hjt
              exact hcl j jt hjt c hc
            match hcc : copyChildren fuel s.children (fs.newItem nd).1 fsS with
            | (.error e, fsE) =>
              simp only [hcc] at hrun
              exact absurd (congrArg Prod.fst hrun) (by simp)
            | (.ok u2, fs2) =>
              simp only [hcc] at hrun
              cases hrun
              obtain ⟨hB1, hB2, ⟨newIds, hBpar, hBbnd, hBshape⟩,
                hB4, hB5, hB6, hB7, hB8, hB9, hB10⟩ :=
                ihB s.children (fs.newItem nd).1 fsS fs1
                  { nd with sectors := secs } hcc hclS w1 hclB2 hcs1
              rw [hSlen] at hB1
              have hfr : ∀ j, j < fs.items.length → fs1.item j = fs.item j := by
                intro j hj
                rw [hB2 j (by omega) (by rw [hp1]; omega), hSlt j hj]
              refine ⟨hp1, by omega, hfr, ?_, ?_, ?_, ?_, ?_, ?_, ?_, ?_⟩
              · intro fuel2 fs2' hag
                match fuel2 with
                | 0 => rfl
                | f2 + 1 =>
                  have hid : fs2'.item (fs.newItem nd).1 = fs1.item (fs.newItem nd).1 :=
                    hag _ (by omega) (by omega)
                  have hpar2 : fs1.item (fs.newItem nd).1 =
                      some ({ isFolder := s.isFolder, name := s.name,
                              content := s.content, sectors := secs,
                              children := newIds, parent := some parentId } : Item) := by
                    rw [hBpar]
                    rfl
                  have hlist : shapeListAux f2 fs2' newIds =
                      shapeListAux f2 fs s.children := by
                    have step1 := hBshape f2 fs2' (fun j hj1 hj2 =>
                      hag j (by omega) hj2)
                    have step2 := (shape_congr f2 fs fsS fs.items.length
                      (fun j hj => (hSlt j hj).symm)
                      (fun j jt hj hjt c hc => hcl j jt hjt c hc)
                      ).2 s.children (fun c hc => hcl srcId s hsrc c hc)
                    exact step1.trans step2.symm
                  rw [shapeAux, shapeAux, hsrc, hid, hpar2]
                  simp only [hlist]
              · intro j jt hj hjt sct hs
                rcases Nat.eq_or_lt_of_le hj with heq | hgt
                · subst heq
                  rw [hp1] at hBpar
                  rw [hBpar] at hjt
                  cases hjt
                  have hs' : sct ∈ secs := hs
                  refine ⟨(hSfree sct hs').2, ?_⟩
                  refine hB5 sct ?_
                  rw [hSsm]
                  exact getD_foldl_set_true_mem secs _ sct hs' (hSfree sct hs').1
                · have hmain := hB4 j jt (by omega) hjt sct hs
                  refine ⟨?_, hmain.2⟩
                  have hfalse := hmain.1
                  rw [hSsm] at hfalse
                  cases hx : fs.sectorMap.getD sct false with
                  | false => rfl
                  | true =>
                    have := getD_foldl_set_true_mono secs fs.sectorMap sct hx
                    rw [this] at hfalse
                    cases hfalse
              · intro sct hst
                refine hB5 sct ?_
                rw [hSsm]
                exact getD_foldl_set_true_mono secs _ sct hst
              · exact hB6
              · exact hB7.trans w11
              · exact hB8.trans w12
              · exact hB9.trans w13
              · exact hB10.trans w14
    · intro cs parentNew fs fs1 pit hrun hcl hpit hclB hcs
      match cs with
      | [] =>
        rw [copyChildren] at hrun
        cases hrun
        refine ⟨Nat.le_refl _, fun j _ _ => rfl, ⟨[], by simp [hpit], by simp, ?_⟩,
          fun j jt hj hjt => absurd (item_some_lt hjt) (by omega),
          fun s h => h, hcl, rfl, rfl, rfl, rfl⟩
        intro fuel2 fs2 _
        rw [shapeListAux_nil, shapeListAux_nil]
      | c :: rest =>
        rw [copyChildren] at hrun
        match hA : copyItemAux fuel c parentNew fs with
        | (.error e, fsE) =>
          simp only [hA] at hrun
          exact absurd (congrArg Prod.fst hrun) (by simp)
        | (.ok newChild, fsA1) =>
          simp only [hA] at hrun
          obtain ⟨hA1, hA2, hA3, hA4, hA5, hA6, hA7, hA8, hA9, hA10, hA11⟩ :=
            ihA c parentNew fs newChild fsA1 hA hcl
          have hparlt : parentNew < fs.items.length := item_some_lt hpit
          have hparA1 : fsA1.item parentNew = some pit := by
            rw [hA3 parentNew hparlt]
            exact hpit
          set fsb : FS := fsA1.modifyItem parentNew (fun it => { it with children := it.children ++ [newChild] }) with hfsb
          have hfsbpar : fsb.item parentNew =
              some { pit with children := pit.children ++ [newChild] } :=
            item_modifyItem_self _ hparA1
          have hfsbne : ∀ j, j ≠ parentNew → fsb.item j = fsA1.item j :=
            fun j hj => item_modifyItem_ne _ _ _ _ hj
          have hfsblen : fsb.items.length = fsA1.items.length :=
            modifyItem_items_length _ _ _
          have hfsbsm : fsb.sectorMap = fsA1.sectorMap :=
            modifyItem_sectorMap _ _ _
          have hclb : ∀ j jt, fsb.item j = some jt →
              ∀ c2 ∈ jt.children, c2 < fsb.items.length := by
            intro j jt hj c2 hc2
            rw [hfsblen]
            by_cases hjp : j = parentNew
            · subst hjp
              rw [hfsbpar] at hj
              cases hj
              rcases List.mem_append.mp hc2 with hm | hm
              · exact hA7 j pit hparA1 c2 hm
              · rcases List.mem_singleton.mp hm with rfl
                omega
            · rw [hfsbne j hjp] at hj
              exact hA7 j jt hj c2 hc2
          have hclBb : ∀ j jt, j < parentNew → fsb.item j = some jt →
              ∀ c2 ∈ jt.children, c2 < parentNew := by
            intro j jt hj hjt c2 hc2
            rw [hfsbne j (by omega), hA3 j (by omega)] at hjt
            exact hclB j jt hj hjt c2 hc2
          obtain ⟨hB1, hB2, ⟨restIds, hBpar, hBbnd, hBshape⟩,
            hB4, hB5, hB6, hB7, hB8, hB9, hB10⟩ :=
            ihB rest parentNew fsb fs1 { pit with children := pit.children ++ [newChild] }
              hrun hclb hfsbpar hclBb (fun x hx => hcs x (List.mem_cons_of_mem _ hx))
          rw [hfsblen] at hB1
          refine ⟨by omega, ?_, ?_, ?_, ?_, ?_, ?_, ?_, ?_, ?_⟩
          · intro j hj hne
            rw [hB2 j (by omega) hne, hfsbne j hne, hA3 j hj]
          · refine ⟨newChild :: restIds, ?_, ?_, ?_⟩
            · rw [hBpar]
              show some ({ pit with
                children := (pit.children ++ [newChild]) ++ restIds } : Item) = _
              rw [List.append_assoc, List.singleton_append]
            · intro n hn
              rcases List.mem_cons.mp hn with rfl | hm
              · omega
              · have := hBbnd n hm
                rw [hfsblen] at this
                omega
            · intro fuel2 fs2 hag
              match fuel2 with
              | 0 => rfl
              | f2 + 1 =>
                have hhead : shapeAux f2 fs2 newChild = shapeAux f2 fs c := by
                  refine hA4 f2 fs2 ?_
                  intro j hj1 hj2
                  rw [hag j hj1 (by omega), hB2 j (by omega) (by omega),
                    hfsbne j (by omega)]
                have hrest2 : shapeListAux f2 fs2 restIds =
                    shapeListAux f2 fsb rest :=
                  hBshape f2 fs2 (fun j hj1 hj2 =>
                    hag j (by rw [hfsblen] at hj1; omega) hj2)
                have hrest3 : shapeListAux f2 fsb rest =
                    shapeListAux f2 fs rest := by
                  have hsc := (shape_congr f2 fs fsb parentNew
                    (fun j hj =>
                      ((hfsbne j (by omega)).trans (hA3 j (by omega))).symm)
                    (fun j jt hj hjt c2 hc2 => hclB j jt hj hjt c2 hc2)).2 rest
                    (fun x hx => hcs x (List.mem_cons_of_mem _ hx))
                  exact hsc.symm
                rw [shapeListAux, shapeListAux, hhead, hrest2, hrest3]
          · intro j jt hj hjt sct hs
            by_cases hjr : j < fsA1.items.length
            · rw [hB2 j (by omega) (by omega), hfsbne j (by omega)] at hjt
              have hm := hA5 j jt hj hjt sct hs
              refine ⟨hm.1, hB5 sct ?_⟩
              rw [hfsbsm]
              exact hm.2
            · have hm := hB4 j jt (by rw [hfsblen]; omega) hjt sct hs
              refine ⟨?_, hm.2⟩
              have hfalse := hm.1
              rw [hfsbsm] at hfalse
              cases hx : fs.sectorMap.getD sct false with
              | false => rfl
              | true =>
                have hmono := hA6 sct hx
                rw [hmono] at hfalse
                cases hfalse
          · intro sct hst
            refine hB5 sct ?_
            rw [hfsbsm]
            exact hA6 sct hst
          · exact hB6
          · exact hB7.trans ((modifyItem_root _ _ _).trans hA8)
          · exact hB8.trans ((modifyItem_currentDir _ _ _).trans hA9)
          · exact hB9.trans ((modifyItem_totalSectors _ _ _).trans hA10)
          · exact hB10.trans ((congrArg List.length hfsbsm).trans hA11)

/-- C6: a successful `copyItem(source, newParent)` run is a deep copy.
The copy root sits in a fresh arena slot; every pre-existing slot is
returned unchanged; the copy's observable shape — kind, names, content
bytes and child order over the whole subtree — equals the source's; every
sector held by any copied File was free beforehand and is allocated
afterwards, hence disjoint from the sectors of every pre-existing File
whose sectors are marked allocated; and subsequently rewriting the
copy's content leaves the original node (content and sectors) unchanged,
and vice versa. -/
theorem claim_C6_cp_deep_copy (fuel srcId parentId : Nat) (fs fs1 : FS)
    (newId : Nat) (sit : Item)
    (hsrc : fs.item srcId = some sit)
    (hrun : copyItemAux fuel srcId parentId fs = (.ok newId, fs1))
    (hcl : arenaClosed fs = true) :
    (∀ fuel2, shapeAux fuel2 fs1 newId = shapeAux fuel2 fs srcId) ∧
    (∀ j, j < fs.items.length → fs1.item j = fs.item j) ∧
    fs.items.length ≤ newId ∧
    (∀ j jt, fs.items.length ≤ j → fs1.item j = some jt →
      ∀ s ∈ jt.sectors, fs.sectorMap.getD s false = false ∧
        fs1.sectorMap.getD s false = true) ∧
    (∀ i iti, fs.item i = some iti →
      (∀ s ∈ iti.sectors, fs.sectorMap.getD s false = true) →
      ∀ j jt, fs.items.length ≤ j → fs1.item j = some jt →
      ∀ s ∈ jt.sectors, s ∉ iti.sectors) ∧
    (∀ cont, (rewriteContent newId cont fs1).2.item srcId = fs1.item srcId) ∧
    (∀ cont, (rewriteContent srcId cont fs1).2.item newId = fs1.item newId) := by
  obtain ⟨h1, h2, h3, h4, h5, h6, h7, h8, h9, h10, h11⟩ :=
    (copy_spec fuel).1 srcId parentId fs newId fs1 hrun (arenaClosed_spec hcl)
  have hsrclt : srcId < fs.items.length := item_some_lt hsrc
  refine ⟨fun fuel2 => h4 fuel2 fs1 (fun _ _ _ => rfl), h3, by omega, h5,
    ?_, ?_, ?_⟩
  · intro i iti hi hall j jt hj hjt sct hs hsmem
    have hfree := (h5 j jt hj hjt sct hs).1
    have halloc := hall sct hsmem
    rw [hfree] at halloc
    cases halloc
  · intro cont
    exact rewriteContent_item_ne _ _ _ _ (by omega)
  · intro cont
    exact rewriteContent_item_ne _ _ _ _ (by omega)

/-- A 4-sector filesystem holding `/a` occupying sectors 0 and 1. -/
def cpWitnessFS : FS := (FS.put (FS.init 4) "a" content65 "/").1

/-- Witness for C6: deep-copying the file `/a` (node 1) under the root
yields node 2 with identical shape; node 1 is untouched; rewriting either
node's content afterwards leaves the other node's record unchanged. -/
theorem claim_C6_witness :
    shapeAux 3 (copyItemAux 4 1 0 cpWitnessFS).2 2 = shapeAux 3 cpWitnessFS 1 ∧
    (copyItemAux 4 1 0 cpWitnessFS).2.item 1 = cpWitnessFS.item 1 ∧
    (rewriteContent 2 ['y'] (copyItemAux 4 1 0 cpWitnessFS).2).2.item 1
      = (copyItemAux 4 1 0 cpWitnessFS).2.item 1 ∧
    (rewriteContent 1 ['y'] (copyItemAux 4 1 0 cpWitnessFS).2).2.item 2
      = (copyItemAux 4 1 0 cpWitnessFS).2.item 2 := by
  have h := claim_C6_cp_deep_copy 4 1 0 cpWitnessFS
    (copyItemAux 4 1 0 cpWitnessFS).2 2
    { isFolder := false, name := "a", content := content65,
      sectors := [0, 1], children := [], parent := some 0 }
    (by decide) (by decide) (by decide)
  exact ⟨h.1 3, h.2.1 1 (by decide), h.2.2.2.2.2.1 ['y'], h.2.2.2.2.2.2 ['y']⟩

/-! ## C3: the sectors/content equation as a checkable arena invariant -/

/-- Per-node invariant of spec §3: a Directory carries no content and no
sectors; a File's sector count is exactly `ceil(len(content)/64)`
(`numChunks`). -/
def itemOK (it : Item) : Bool :=
  if it.isFolder then decide (it.content = [] ∧ it.sectors = [])
  else decide (it.sectors.length = numChunks it.content)

/-- The whole-arena invariant: every live node satisfies `itemOK`. -/
def FS.invP (fs : FS) : Bool :=
  fs.items.all (fun o =>
    match o with
    | none => true
    | some it => itemOK it)

/-- Propositional form of `FS.invP`. -/
def InvOK (fs : FS) : Prop :=
  ∀ j it, fs.item j = some it → itemOK it = true

theorem invP_elim {fs : FS} (h : fs.invP = true) : InvOK fs := by
  intro j it hj
  rw [FS.invP, List.all_eq_true] at h
  have hlt : j < fs.items.length := item_some_lt hj
  have hel : fs.items.getD j none = some it := hj
  rw [List.getD_eq_getElem _ _ hlt] at hel
  have hmem : some it ∈ fs.items := hel ▸ List.getElem_mem _
  exact h (some it) hmem

theorem invP_intro {fs : FS} (h : InvOK fs) : fs.invP = true := by
  rw [FS.invP, List.all_eq_true]
  intro o ho
  match o with
  | none => rfl
  | some it =>
    obtain ⟨j, hjlt, hget⟩ := List.mem_iff_getElem.mp ho
    refine h j it ?_
    show fs.items.getD j none = some it
    rw [List.getD_eq_getElem _ _ hjlt]
    exact hget

theorem InvOK_newItem {fs : FS} {nd : Item} (h : InvOK fs)
    (hnd : itemOK nd = true) : InvOK (fs.newItem nd).2 := by
  intro j it hj
  rcases Nat.lt_trichotomy j fs.items.length with hlt | heq | hgt
  · rw [item_newItem_lt fs nd hlt] at hj
    exact h j it hj
  · subst heq
    have := item_newItem_self fs nd
    rw [show (fs.newItem nd).1 = fs.items.length from rfl] at this
    rw [this] at hj
    cases hj
    exact hnd
  · have : (fs.newItem nd).2.item j = none := by
      show (fs.items ++ [some nd]).getD j none = none
      rw [getD_snoc_gt _ _ _ _ hgt]
    rw [this] at hj
    cases hj

theorem InvOK_modifyItem {fs : FS} {id : Nat} {f : Item → Item} (h : InvOK fs)
    (hf : ∀ it, itemOK it = true → itemOK (f it) = true) :
    InvOK (fs.modifyItem id f) := by
  intro j it hj
  by_cases hji : j = id
  · subst hji
    match hit : fs.item j with
    | none =>
      rw [modifyItem_none f hit] at hj
      exact h j it hj
    | some it0 =>
      rw [item_modifyItem_self f hit] at hj
      cases hj
      exact hf it0 (h j it0 hit)
  · rw [item_modifyItem_ne _ _ _ _ hji] at hj
    exact h j it hj

theorem InvOK_of_weak {fs fs' : FS} (h : InvOK fs)
    (hw : ∀ j, fs'.item j = fs.item j ∨ fs'.item j = none) : InvOK fs' := by
  intro j it hj
  rcases hw j with he | he
  · rw [he] at hj
    exact h j it hj
  · rw [he] at hj
    cases hj

theorem freeSectorsRecList_items : ∀ (fuel : Nat) (ids : List Nat) (fs : FS),
    (freeSectorsRecList fuel ids fs).2.items = fs.items := by
  intro fuel
  induction fuel with
  | zero =>
    intro ids fs
    match ids with
    | [] => rfl
    | _ :: _ => rfl
  | succ fuel ih =>
    intro ids fs
    match ids with
    | [] => rfl
    | id :: rest =>
      rw [freeSectorsRecList]
      match hit : fs.item id with
      | none =>
        simp only [hit]
        exact ih rest fs
      | some it =>
        simp only [hit]
        by_cases hf : it.isFolder
        · rw [if_pos hf]
          exact ih _ fs
        · rw [if_neg hf]
          match hfl : freeList it.sectors fs with
          | (.error e, fs1) =>
            simp only [hfl]
            have := freeList_items it.sectors fs
            rw [hfl] at this
            exact this
          | (.ok u, fs1) =>
            simp only [hfl]
            rw [ih _ fs1]
            have := freeList_items it.sectors fs
            rw [hfl] at this
            exact this

theorem deleteTreeTasks_item_weak : ∀ (fuel : Nat) (tasks : List DelTask)
    (fs : FS) (j : Nat),
    (deleteTreeTasks fuel tasks fs).2.item j = fs.item j ∨
    (deleteTreeTasks fuel tasks fs).2.item j = none := by
  intro fuel
  induction fuel with
  | zero =>
    intro tasks fs j
    match tasks with
    | [] => exact Or.inl rfl
    | _ :: _ => exact Or.inl rfl
  | succ fuel ih =>
    intro tasks fs j
    match tasks with
    | [] => exact Or.inl rfl
    | DelTask.visit id :: rest =>
      rw [deleteTreeTasks]
      match hit : fs.item id with
      | none =>
        simp only [hit]
        exact ih rest fs j
      | some it =>
        simp only [hit]
        exact ih _ fs j
    | DelTask.dispose id :: rest =>
      rw [deleteTreeTasks]
      match hfl : freeSectorsRecList (fs.items.length + 1) [id] fs with
      | (.error e, fs1) =>
        simp only [hfl]
        refine Or.inl ?_
        have hitems : fs1.items = fs.items := by
          have := freeSectorsRecList_items (fs.items.length + 1) [id] fs
          rw [hfl] at this
          exact this
        show fs1.items.getD j none = fs.items.getD j none
        rw [hitems]
      | (.ok u, fs1) =>
        simp only [hfl]
        have hitems : fs1.items = fs.items := by
          have := freeSectorsRecList_items (fs.items.length + 1) [id] fs
          rw [hfl] at this
          exact this
        rcases ih rest (fs1.deleteItem id) j with he | he
        · rw [he, item_deleteItem]
          by_cases hji : j = id
          · rw [if_pos hji]
            exact Or.inr rfl
          · rw [if_neg hji]
            refine Or.inl ?_
            show fs1.items.getD j none = fs.items.getD j none
            rw [hitems]
        · exact Or.inr he

theorem InvOK_saveToDisk_ok {fid : Nat} {fs fs' : FS} {u : Unit}
    (hrun : saveToDisk fid fs = (.ok u, fs'))
    (hexc : ∀ j it, j ≠ fid → fs.item j = some it → itemOK it = true)
    (hfid : ∀ it, fs.item fid = some it → it.isFolder = false ∧ it.sectors = []) :
    InvOK fs' := by
  match hit : fs.item fid with
  | none =>
    rw [saveToDisk] at hrun
    simp only [hit] at hrun
    cases hrun
    intro j it hj
    by_cases hji : j = fid
    · subst hji
      rw [hit] at hj
      cases hj
    · exact hexc j it hji hj
  | some it0 =>
    obtain ⟨hfo, hsec⟩ := hfid it0 hit
    obtain ⟨secs, w1, w2, w3, w4, w5, w6, w7, w8, w9, w10, w11, w12, w13, w14⟩ :=
      saveToDisk_spec fs fid it0 hit hfo
        (by rw [hsec]; intro x hx; exact absurd hx (List.not_mem_nil x))
    rw [hrun] at w1 w2
    have hlen : secs.length = numChunks it0.content := by
      refine w8 ?_
      rw [hrun]
    intro j it hj
    by_cases hji : j = fid
    · subst hji
      rw [w1] at hj
      cases hj
      simp only [itemOK]
      rw [if_neg (by simp [hfo])]
      simp [hlen]
    · rw [w2 j hji] at hj
      exact hexc j it hji hj

theorem mkdirLoop_InvOK : ∀ (segs : List String) (cur : Nat) (fs : FS),
    InvOK fs → InvOK (mkdirLoop segs cur fs).2 := by
  intro segs
  induction segs with
  | nil => intro cur fs h; exact h
  | cons part rest ih =>
    intro cur fs h
    rw [mkdirLoop]
    by_cases h1 : part = "" ∨ part = "." ∨ part = ".."
    · rw [if_pos h1]
      exact h
    · rw [if_neg h1]
      by_cases h2 : ¬ isValidName part
      · rw [if_pos h2]
        exact h
      · rw [if_neg h2]
        match hfc : findChild fs (fs.childrenOf cur) part with
        | some (cid, ci) =>
          simp only [hfc]
          by_cases h3 : ci.isFolder
          · rw [if_pos h3]
            exact ih cid fs h
          · rw [if_neg h3]
            exact h
        | none =>
          simp only [hfc]
          refine ih _ _ (InvOK_modifyItem (InvOK_newItem h (by rfl))
            (fun it hx => hx))

theorem copy_InvOK : ∀ fuel : Nat,
    (∀ srcId parentId fs newId fs1,
      copyItemAux fuel srcId parentId fs = (.ok newId, fs1) →
      InvOK fs → InvOK fs1) ∧
    (∀ cs parentNew fs fs1,
      copyChildren fuel cs parentNew fs = (.ok (), fs1) →
      InvOK fs → InvOK fs1) := by
  intro fuel
  induction fuel with
  | zero =>
    constructor
    · intro srcId parentId fs newId fs1 hrun _
      rw [copyItemAux] at hrun
      exact absurd (congrArg Prod.fst hrun) (by simp)
    · intro cs parentNew fs fs1 hrun h
      match cs with
      | [] =>
        rw [copyChildren] at hrun
        cases hrun
        exact h
      | _ :: _ =>
        rw [copyChildren] at hrun
        exact absurd (congrArg Prod.fst hrun) (by simp)
  | succ fuel ih =>
    obtain ⟨ihA, ihB⟩ := ih
    constructor
    · intro srcId parentId fs newId fs1 hrun h
      rw [copyItemAux] at hrun
      match hsrc : fs.item srcId with
      | none =>
        simp only [hsrc] at hrun
        exact absurd (congrArg Prod.fst hrun) (by simp)
      | some s =>
        simp only [hsrc] at hrun
        set nd : Item := { isFolder := s.isFolder, name := s.name, content := s.content, sectors := [], children := [], parent := some parentId } with hnd
        cases hf : s.isFolder with
        | true =>
          rw [hf] at hrun
          rw [if_pos rfl] at hrun
          match hcc : copyChildren fuel s.children (fs.newItem nd).1
              (fs.newItem nd).2 with
          | (.error e, fsE) =>
            simp only [hcc] at hrun
            exact absurd (congrArg Prod.fst hrun) (by simp)
          | (.ok u, fs2) =>
            simp only [hcc] at hrun
            cases hrun
            have hndOK : itemOK nd = true := by
              have hs := h srcId s hsrc
              rw [itemOK, if_pos hf] at hs
              obtain ⟨hc, _⟩ := of_decide_eq_true hs
              rw [itemOK, if_pos (show nd.isFolder = true from hf)]
              exact decide_eq_true ⟨hc, rfl⟩
            exact ihB _ _ _ _ hcc (InvOK_newItem h hndOK)
        | false =>
          rw [hf] at hrun
          rw [if_neg (by simp)] at hrun
          match hsv : saveToDisk (fs.newItem nd).1 (fs.newItem nd).2 with
          | (.error e, fsE) =>
            simp only [hsv] at hrun
            exact absurd (congrArg Prod.fst hrun) (by simp)
          | (.ok u, fsS) =>
            simp only [hsv] at hrun
            match hcc : copyChildren fuel s.children (fs.newItem nd).1 fsS with
            | (.error e, fsE) =>
              simp only [hcc] at hrun
              exact absurd (congrArg Prod.fst hrun) (by simp)
            | (.ok u2, fs2) =>
              simp only [hcc] at hrun
              cases hrun
              refine ihB _ _ _ _ hcc (InvOK_saveToDisk_ok hsv ?_ ?_)
              · intro j it hji hj
                rcases Nat.lt_trichotomy j fs.items.length with hlt | heq | hgt
                · rw [item_newItem_lt fs nd hlt] at hj
                  exact h j it hj
                · exact absurd heq hji
                · have hnone : (fs.newItem nd).2.item j = none := by
                    show (fs.items ++ [some nd]).getD j none = none
                    rw [getD_snoc_gt _ _ _ _ hgt]
                  rw [hnone] at hj
                  cases hj
              · intro it hj
                rw [item_newItem_self fs nd] at hj
                cases hj
                exact ⟨hf, rfl⟩
    · intro cs parentNew fs fs1 hrun h
      match cs with
      | [] =>
        rw [copyChildren] at hrun
        cases hrun
        exact h
      | c :: rest =>
        rw [copyChildren] at hrun
        match hA : copyItemAux fuel c parentNew fs with
        | (.error e, fsE) =>
          simp only [hA] at hrun
          exact absurd (congrArg Prod.fst hrun) (by simp)
        | (.ok newChild, fsA1) =>
          simp only [hA] at hrun
          exact ihB _ _ _ _ hrun
            (InvOK_modifyItem (ihA _ _ _ _ _ hA h) (fun it hx => hx))

theorem mvFallback_InvOK (fs : FS) (srcId : Nat) (srcIt : Item) (dest : String)
    (h : InvOK fs) : InvOK (mvFallback fs srcId srcIt dest).1 := by
  rw [mvFallback]
  match hg : getItem fs (splitLastSlash dest).1 with
  | none =>
    simp only [hg]
    exact h
  | some ddId =>
    simp only [hg]
    match hdd : fs.item ddId with
    | none =>
      simp only [hdd]
      exact h
    | some dd =>
      simp only [hdd]
      split
      · exact h
      · split
        · exact h
        · by_cases hsp : srcIt.parent = some ddId
          · rw [if_pos hsp, if_pos hsp]
            exact InvOK_modifyItem h (fun it hx => hx)
          · rw [if_neg hsp, if_neg hsp]
            refine InvOK_modifyItem (InvOK_modifyItem
              (InvOK_modifyItem ?_ (fun it hx => hx)) (fun it hx => hx))
              (fun it hx => hx)
            cases hpp : srcIt.parent with
            | none => exact h
            | some p => exact InvOK_modifyItem h (fun it hx => hx)

theorem mv_InvOK (fs : FS) (source dest : String) (h : InvOK fs) :
    InvOK (FS.mv fs source dest).1 := by
  rw [FS.mv]
  match hg : getItem fs source with
  | none =>
    simp only [hg]
    exact h
  | some srcId =>
    simp only [hg]
    match hsi : fs.item srcId with
    | none =>
      simp only [hsi]
      exact h
    | some srcIt =>
      simp only [hsi]
      split
      · exact h
      · match hgd : getItem fs dest with
        | none =>
          simp only [hgd]
          exact mvFallback_InvOK fs srcId srcIt dest h
        | some destId =>
          simp only [hgd]
          match hdd : fs.item destId with
          | none =>
            simp only [hdd]
            exact mvFallback_InvOK fs srcId srcIt dest h
          | some dit =>
            simp only [hdd]
            split
            · split
              · exact h
              · split
                · refine InvOK_modifyItem (InvOK_modifyItem ?_ (fun it hx => hx))
                    (fun it hx => hx)
                  cases hpp : srcIt.parent with
                  | none => exact h
                  | some p => exact InvOK_modifyItem h (fun it hx => hx)
                · exact h
            · exact mvFallback_InvOK fs srcId srcIt dest h

theorem defragWrite_items : ∀ (cs : List (List Char)) (fid next : Nat) (fs : FS)
    (it : Item), fs.item fid = some it →
    ∃ ext : List Nat,
      (defragWrite fid cs next fs).2.item fid
        = some { it with sectors := it.sectors ++ ext } ∧
      (∀ n1, (defragWrite fid cs next fs).1 = .ok n1 → ext.length = cs.length) ∧
      (∀ j, j ≠ fid → (defragWrite fid cs next fs).2.item j = fs.item j) := by
  intro cs
  induction cs with
  | nil =>
    intro fid next fs it hit
    refine ⟨[], ?_, fun n1 _ => rfl, fun j _ => rfl⟩
    show fs.item fid = some { it with sectors := it.sectors ++ [] }
    rw [hit]
    simp
  | cons c rest ih =>
    intro fid next fs it hit
    rw [defragWrite]
    by_cases hfull : next ≥ fs.totalSectors
    · rw [if_pos hfull]
      refine ⟨[], ?_, ?_, fun j _ => rfl⟩
      · show fs.item fid = some { it with sectors := it.sectors ++ [] }
        rw [hit]
        simp
      · intro n1 hn
        exact absurd hn (by simp)
    · rw [if_neg hfull]
      have hit4 : ({ { ({ fs with sectorMap := fs.sectorMap.set next true } : FS).modifyItem
            fid (fun i => { i with sectors := i.sectors ++ [next] }) with
            disk := growDisk next (({ fs with sectorMap := fs.sectorMap.set next true } : FS).modifyItem
              fid (fun i => { i with sectors := i.sectors ++ [next] })).disk } with
            disk := (growDisk next (({ fs with sectorMap := fs.sectorMap.set next true } : FS).modifyItem
              fid (fun i => { i with sectors := i.sectors ++ [next] })).disk).set next c } : FS).item fid
          = some { it with sectors := it.sectors ++ [next] } := by
        show ((({ fs with sectorMap := fs.sectorMap.set next true } : FS)).modifyItem
          fid (fun i => { i with sectors := i.sectors ++ [next] })).item fid = _
        exact item_modifyItem_self _ hit
      obtain ⟨ext, e1, e2, e3⟩ := ih fid (next + 1) _ _ hit4
      refine ⟨next :: ext, ?_, ?_, ?_⟩
      · rw [e1]
        show some ({ it with sectors := (it.sectors ++ [next]) ++ ext } : Item) = _
        rw [List.append_assoc, List.singleton_append]
      · intro n1 hn
        have := e2 n1 hn
        simp only [List.length_cons, this]
      · intro j hj
        rw [e3 j hj]
        show ((({ fs with sectorMap := fs.sectorMap.set next true } : FS)).modifyItem
          fid (fun i => { i with sectors := i.sectors ++ [next] })).item j = fs.item j
        rw [item_modifyItem_ne _ _ _ _ hj]
        rfl

theorem defragLoop_InvOK : ∀ (files : List Nat) (next : Nat) (fs : FS),
    InvOK fs → ∀ r fs1, defragLoop files next fs = (.ok r, fs1) → InvOK fs1 := by
  intro files
  induction files with
  | nil =>
    intro next fs h r fs1 hrun
    rw [defragLoop] at hrun
    cases hrun
    exact h
  | cons fid rest ih =>
    intro next fs h r fs1 hrun
    rw [defragLoop] at hrun
    match hit : fs.item fid with
    | none =>
      simp only [hit] at hrun
      exact ih next fs h r fs1 hrun
    | some f =>
      simp only [hit] at hrun
      by_cases hf : f.isFolder
      · rw [if_pos hf] at hrun
        exact ih next fs h r fs1 hrun
      · rw [if_neg hf] at hrun
        have hit1 : (fs.modifyItem fid (fun it => { it with sectors := [] })).item fid
            = some { f with sectors := [] } := item_modifyItem_self _ hit
        match hdw : defragWrite fid (chunks f.content) next
            (fs.modifyItem fid (fun it => { it with sectors := [] })) with
        | (.error e, fs2) =>
          simp only [hdw] at hrun
          exact absurd (congrArg Prod.fst hrun) (by simp)
        | (.ok next1, fs2) =>
          simp only [hdw] at hrun
          obtain ⟨ext, e1, e2, e3⟩ := defragWrite_items (chunks f.content) fid next
            (fs.modifyItem fid (fun it => { it with sectors := [] }))
            { f with sectors := [] } hit1
          rw [hdw] at e1 e2 e3
          have hInv2 : InvOK fs2 := by
            intro j it hj
            by_cases hji : j = fid
            · subst hji
              rw [e1] at hj
              cases hj
              rw [itemOK, if_neg hf]
              refine decide_eq_true ?_
              show ([] ++ ext).length = numChunks f.content
              rw [List.nil_append, e2 next1 rfl]
              rfl
            · rw [e3 j hji, item_modifyItem_ne _ _ _ _ hji] at hj
              exact h j it hj
          exact ih next1 fs2 hInv2 r fs1 hrun

theorem cd_InvOK (fs : FS) (path : String) (h : InvOK fs) :
    InvOK (FS.cd fs path).1 := by
  rw [FS.cd]
  match hg : getItem fs path with
  | none => simp only [hg]; exact h
  | some t =>
    simp only [hg]
    match ht : fs.item t with
    | none => simp only [ht]; exact h
    | some ti =>
      simp only [ht]
      split
      · exact h
      · exact h

theorem get_InvOK (fs : FS) (filename : String) (h : InvOK fs) :
    InvOK (FS.get fs filename).1 := by
  rw [FS.get]
  match hg : getItem fs filename with
  | none => simp only [hg]; exact h
  | some fid =>
    simp only [hg]
    match ht : fs.item fid with
    | none => simp only [ht]; exact h
    | some it =>
      simp only [ht]
      split
      · exact h
      · exact h

theorem mkdir_InvOK (fs : FS) (path : String) (h : InvOK fs) :
    InvOK (FS.mkdir fs path).1 := by
  rw [FS.mkdir]
  split
  · exact h
  · match hp : splitPath path with
    | [] => exact h
    | a :: rest =>
      have hthis := mkdirLoop_InvOK (splitPath path)
        (if startsWithSlash path then fs.root else fs.currentDir) fs h
      rw [hp] at hthis
      match hml : mkdirLoop (a :: rest)
          (if startsWithSlash path then fs.root else fs.currentDir) fs with
      | (.ok v, fs1) =>
        simp only [hml]
        rw [hml] at hthis
        exact hthis
      | (.error e, fs1) =>
        simp only [hml]
        rw [hml] at hthis
        exact hthis

theorem rm_InvOK (fs : FS) (name : String) (recursive : Bool) (h : InvOK fs) :
    InvOK (FS.rm fs name recursive).1 := by
  rw [FS.rm]
  match hfc : findChild fs (fs.childrenOf fs.currentDir) name with
  | none => simp only [hfc]; exact h
  | some (tid, tit) =>
    simp only [hfc]
    split
    · exact h
    · have h1 : InvOK (fs.modifyItem fs.currentDir
          (fun it => { it with children := it.children.erase tid })) :=
        InvOK_modifyItem h (fun it hx => hx)
      have hweak := fun j => deleteTreeTasks_item_weak
        (2 * (fs.modifyItem fs.currentDir
          (fun it => { it with children := it.children.erase tid })).items.length + 2)
        [DelTask.visit tid]
        (fs.modifyItem fs.currentDir
          (fun it => { it with children := it.children.erase tid })) j
      match hdt : deleteTreeAux
          (2 * (fs.modifyItem fs.currentDir
            (fun it => { it with children := it.children.erase tid })).items.length + 2)
          tid
          (fs.modifyItem fs.currentDir
            (fun it => { it with children := it.children.erase tid })) with
      | (.ok u, fs2) =>
        simp only [hdt]
        rw [deleteTreeAux] at hdt
        refine InvOK_of_weak h1 ?_
        intro j
        have := hweak j
        rw [hdt] at this
        exact this
      | (.error e, fs2) =>
        simp only [hdt]
        rw [deleteTreeAux] at hdt
        refine InvOK_of_weak h1 ?_
        intro j
        have := hweak j
        rw [hdt] at this
        exact this

theorem InvOK_attach_save {fs : FS} {nd : Item} {cur : Nat} {fs' : FS} {u : Unit}
    (hnd : nd.isFolder = false) (hsec : nd.sectors = [])
    (hsv : saveToDisk (fs.newItem nd).1
      ((fs.newItem nd).2.modifyItem cur
        (fun it => { it with children := it.children ++ [(fs.newItem nd).1] }))
      = (.ok u, fs'))
    (h : InvOK fs) : InvOK fs' := by
  refine InvOK_saveToDisk_ok hsv ?_ ?_
  · intro j it hji hj
    by_cases hjc : j = cur
    · subst hjc
      match hcc : (fs.newItem nd).2.item j with
      | none =>
        rw [modifyItem_none _ hcc] at hj
        rw [hcc] at hj
        cases hj
      | some it0 =>
        rw [item_modifyItem_self _ hcc] at hj
        cases hj
        have hok : itemOK it0 = true := by
          rcases Nat.lt_trichotomy j fs.items.length with hlt | heq | hgt
          · rw [item_newItem_lt fs nd hlt] at hcc
            exact h j it0 hcc
          · exact absurd heq hji
          · have hnone : (fs.newItem nd).2.item j = none := by
              show (fs.items ++ [some nd]).getD j none = none
              rw [getD_snoc_gt _ _ _ _ hgt]
            rw [hnone] at hcc
            cases hcc
        exact hok
    · rw [item_modifyItem_ne _ _ _ _ hjc] at hj
      rcases Nat.lt_trichotomy j fs.items.length with hlt | heq | hgt
      · rw [item_newItem_lt fs nd hlt] at hj
        exact h j it hj
      · exact absurd heq hji
      · have hnone : (fs.newItem nd).2.item j = none := by
          show (fs.items ++ [some nd]).getD j none = none
          rw [getD_snoc_gt _ _ _ _ hgt]
        rw [hnone] at hj
        cases hj
  · intro it hj
    by_cases hpc : (fs.newItem nd).1 = cur
    · rw [← hpc, item_modifyItem_self _ (item_newItem_self fs nd)] at hj
      cases hj
      exact ⟨hnd, hsec⟩
    · rw [item_modifyItem_ne _ _ _ _ hpc, item_newItem_self fs nd] at hj
      cases hj
      exact ⟨hnd, hsec⟩

theorem touch_InvOK (fs : FS) (filename : String) (h : InvOK fs)
    (hok : (fs.touch filename).2 = none) : InvOK (fs.touch filename).1 := by
  rw [FS.touch] at hok ⊢
  split at hok
  · cases hok
  · rename_i hv
    rw [if_neg hv]
    match hfc : findChild fs (fs.childrenOf fs.currentDir) filename with
    | some x =>
      simp only [hfc] at hok
      cases hok
    | none =>
      simp only [hfc] at hok ⊢
      match hsv : saveToDisk
          (fs.newItem { isFolder := false, name := filename, content := [], sectors := [], children := [], parent := some fs.currentDir }).1
          ((fs.newItem { isFolder := false, name := filename, content := [], sectors := [], children := [], parent := some fs.currentDir }).2.modifyItem
            fs.currentDir
            (fun it => { it with children := it.children ++
              [(fs.newItem { isFolder := false, name := filename, content := [], sectors := [], children := [], parent := some fs.currentDir }).1] })) with
      | (.error e, fs3) =>
        simp only [hsv] at hok
        cases hok
      | (.ok u, fs3) =>
        simp only [hsv]
        exact InvOK_attach_save rfl rfl hsv h

theorem put_InvOK (fs : FS) (realFile : String) (content : List Char)
    (fsPath : String) (h : InvOK fs)
    (hok : (fs.put realFile content fsPath).2 = none) :
    InvOK (fs.put realFile content fsPath).1 := by
  rw [FS.put] at hok ⊢
  match hg : getItem fs fsPath with
  | none =>
    simp only [hg] at hok
    cases hok
  | some dId =>
    simp only [hg] at hok ⊢
    match hd : fs.item dId with
    | none =>
      simp only [hd] at hok
      cases hok
    | some d =>
      simp only [hd] at hok ⊢
      split at hok
      · cases hok
      · rename_i hdir
        rw [if_neg hdir]
        split at hok
        · cases hok
        · rename_i hconf
          rw [if_neg hconf]
          match hsv : saveToDisk
              (fs.newItem { isFolder := false, name := realFile, content := content, sectors := [], children := [], parent := some dId }).1
              ((fs.newItem { isFolder := false, name := realFile, content := content, sectors := [], children := [], parent := some dId }).2.modifyItem
                dId
                (fun it => { it with children := it.children ++
                  [(fs.newItem { isFolder := false, name := realFile, content := content, sectors := [], children := [], parent := some dId }).1] })) with
          | (.error e, fs3) =>
            simp only [hsv] at hok
            cases hok
          | (.ok u, fs3) =>
            simp only [hsv]
            exact InvOK_attach_save rfl rfl hsv h

theorem cpFallback_InvOK (fs : FS) (srcId : Nat) (dest : String) (h : InvOK fs)
    (hok : (cpFallback fs srcId dest).2 = none) :
    InvOK (cpFallback fs srcId dest).1 := by
  rw [cpFallback] at hok ⊢
  match hg : getItem fs (splitLastSlash dest).1 with
  | none =>
    simp only [hg] at hok
    cases hok
  | some ddId =>
    simp only [hg] at hok ⊢
    match hdd : fs.item ddId with
    | none =>
      simp only [hdd] at hok
      cases hok
    | some dd =>
      simp only [hdd] at hok ⊢
      split at hok
      · cases hok
      · rename_i hdir
        rw [if_neg hdir]
        match hfc : findChild fs dd.children (splitLastSlash dest).2 with
        | some x =>
          simp only [hfc] at hok
          cases hok
        | none =>
          simp only [hfc] at hok ⊢
          match hcp : copyItemAux (2 * fs.items.length + 2) srcId ddId fs with
          | (.error e, fs1) =>
            simp only [hcp] at hok
            cases hok
          | (.ok newId, fs1) =>
            simp only [hcp]
            exact InvOK_modifyItem (InvOK_modifyItem
              ((copy_InvOK _).1 _ _ _ _ _ hcp h) (fun it hx => hx))
              (fun it hx => hx)

theorem cp_InvOK (fs : FS) (source dest : String) (h : InvOK fs)
    (hok : (fs.cp source dest).2 = none) : InvOK (fs.cp source dest).1 := by
  rw [FS.cp] at hok ⊢
  match hg : getItem fs source with
  | none =>
    simp only [hg] at hok
    cases hok
  | some srcId =>
    simp only [hg] at hok ⊢
    match hgd : getItem fs dest with
    | none =>
      simp only [hgd] at hok ⊢
      exact cpFallback_InvOK fs srcId dest h hok
    | some destId =>
      simp only [hgd] at hok ⊢
      match hdd : fs.item destId with
      | none =>
        simp only [hdd] at hok ⊢
        exact cpFallback_InvOK fs srcId dest h hok
      | some dit =>
        simp only [hdd] at hok ⊢
        split at hok
        · rename_i hdir
          rw [if_pos hdir]
          match hfc : findChild fs dit.children
              (match fs.item srcId with
               | some s => s.name
               | none => "") with
          | some x =>
            simp only [hfc] at hok
            cases hok
          | none =>
            simp only [hfc] at hok ⊢
            match hcp : copyItemAux (2 * fs.items.length + 2) srcId destId fs with
            | (.error e, fs1) =>
              simp only [hcp] at hok
              cases hok
            | (.ok newId, fs1) =>
              simp only [hcp]
              exact InvOK_modifyItem ((copy_InvOK _).1 _ _ _ _ _ hcp h)
                (fun it hx => hx)
        · rename_i hdir
          rw [if_neg hdir]
          exact cpFallback_InvOK fs srcId dest h hok

theorem defrag_InvOK (fs : FS) (h : InvOK fs)
    (hok : (fs.defrag).2 = none) : InvOK (fs.defrag).1 := by
  rw [FS.defrag] at hok ⊢
  match hdf : defragFiles fs with
  | .error e =>
    simp only [hdf] at hok
    cases hok
  | .ok files =>
    simp only [hdf] at hok ⊢
    match hdl : defragLoop files 0
        { fs with sectorMap := List.replicate fs.sectorMap.length false } with
    | (.error e, fs2) =>
      simp only [hdl] at hok
      cases hok
    | (.ok v, fs2) =>
      simp only [hdl]
      exact defragLoop_InvOK files 0
        { fs with sectorMap := List.replicate fs.sectorMap.length false }
        h v fs2 hdl

/-- C3 (amended): provided every live node satisfied the sectors/content
equation before the operation, every public operation that returns
without error re-establishes it: every live File has
`len(sectors) = ceil(len(content)/64)` (0 for empty content) and every
live Directory has empty content and sectors.  (Unconditionally after
every return the claim is false: an operation that hits DiskFull partway
through a content write returns with a violating File in place —
`claim_C3_counterexample`.) -/
theorem claim_C3_amended (op : Op) (fs : FS) (hP : fs.invP = true)
    (hok : (fs.applyOp op).2 = none) : (fs.applyOp op).1.invP = true := by
  have h := invP_elim hP
  refine invP_intro ?_
  match op with
  | .pwd => exact h
  | .ls p => exact h
  | .info p => exact h
  | .cd path => exact cd_InvOK fs path h
  | .mkdir path => exact mkdir_InvOK fs path h
  | .touch name => exact touch_InvOK fs name h hok
  | .rm name r => exact rm_InvOK fs name r h
  | .cp s d => exact cp_InvOK fs s d h hok
  | .mv s d => exact mv_InvOK fs s d h
  | .get f => exact get_InvOK fs f h
  | .put r c p => exact put_InvOK fs r c p h hok
  | .defrag => exact defrag_InvOK fs h hok

/-- Witness for C3 (amended): `put` of a 65-byte file on a 3-sector disk
succeeds, and the invariant checker holds before and after. -/
theorem claim_C3_witness :
    (FS.init 3).invP = true ∧
    ((FS.init 3).applyOp (Op.put "a" content65 "/")).2 = none ∧
    ((FS.init 3).applyOp (Op.put "a" content65 "/")).1.invP = true :=
  ⟨by decide, by decide,
    claim_C3_amended (Op.put "a" content65 "/") (FS.init 3) (by decide) (by decide)⟩
